import Mathlib

/-!
Verification of the Moore-automata simulation library (files `ma.c` and
`ma_additional.c`) against its specification.

The C code is shallowly embedded as follows.

* Machine words (`uint64_t`) are `Nat`s; every operation that can exceed
  64 bits in C is reduced modulo `2 ^ 64` at the point where the C code
  would wrap (`size_t` additions in the range checks of `ma_connect` /
  `ma_disconnect` and the loop indices `in + i`, `out + i`).
* A bit buffer (a C `uint64_t` array) is a `List Nat`; the element at
  index `b` is the block holding bits `64*b .. 64*b+63`.
* An automaton (`moore_t`) is a `Moore` structure.  The per-input-bit
  incoming-connection array is a function `Nat → Option (Nat × Nat)`
  (destination-bit index ↦ `(source automaton id, source output bit)`),
  and the per-output-bit outgoing lists are a function
  `Nat → List (Nat × Nat)`.  C pointers to automata become `Nat`
  identifiers into a heap `Sys := Nat → Option Moore`; a NULL pointer is
  a lookup that yields `none`.
* The user callbacks (`transition_function_t`, `output_function_t`) are
  pure Lean functions stored in the structure.  They receive the same
  arguments as in C (including the destination buffer the C callback
  would write into) and return the buffer they produce.
* `malloc`/`calloc` of connection-list nodes can fail in C; this is
  modelled by an explicit allocation oracle, a `List Bool` consumed one
  entry per allocation attempt ( `[]` means every allocation succeeds ).
  The scratch-buffer `calloc` of `calculate_new_state` is assumed to
  succeed, as the claims under study about `ma_step` concern its
  normal execution.
* `errno` is modelled for the connection layer, where the claims refer
  to it: the `EINVAL` writes of the public argument checks and of the
  helper guards, and the `ENOMEM` writes of the failed link-node
  allocations.  `errno` writes of helpers on code paths that no modelled
  claim can reach (e.g. `get_bit` on a NULL source) are not tracked.
-/

/-- Wrap-around modulus of `size_t` / `uint64_t` arithmetic. -/
def UINT64_MOD : Nat := 18446744073709551616

/-- Value of `~0ULL`, i.e. `2 ^ 64 - 1`. -/
def UINT64_MAX : Nat := 18446744073709551615

/-- The `moore_t` structure of `ma_additional.h`. -/
structure Moore where
  input_signals_num : Nat
  output_signals_num : Nat
  state_signals_num : Nat
  state : List Nat
  input : List Nat
  output : List Nat
  transition_function : List Nat → List Nat → List Nat → Nat → Nat → List Nat
  output_function : List Nat → List Nat → Nat → Nat → List Nat
  incoming_connections : Nat → Option (Nat × Nat)
  outgoing_connections : Nat → List (Nat × Nat)

/-- The heap of live automata: identifier ↦ automaton (or `none` for a
dangling / NULL pointer). -/
def Sys : Type := Nat → Option Moore

/-- Heap update at one identifier. -/
def updSys (sys : Sys) (k : Nat) (a : Moore) : Sys :=
  fun j => if j = k then some a else sys j

/-- Pointwise update of a function-represented array. -/
def updFun {α : Type} (f : Nat → α) (i : Nat) (v : α) : Nat → α :=
  fun j => if j = i then v else f j

/-- Incoming slot of automaton `k` at input bit `i` (projection used to
state theorems; `none` for a missing automaton). -/
def incomingOf (sys : Sys) (k i : Nat) : Option (Nat × Nat) :=
  match sys k with
  | some a => a.incoming_connections i
  | none => none

/-- Outgoing list of automaton `k` at output bit `j`. -/
def outgoingOf (sys : Sys) (k j : Nat) : List (Nat × Nat) :=
  match sys k with
  | some a => a.outgoing_connections j
  | none => []

/-- View of the heap keeping only each automaton's output buffer. -/
def outview (sys : Sys) (k : Nat) : Option (List Nat) :=
  Option.map (fun a => a.output) (sys k)

/-- `create_bit_mask` of `ma_additional.c`: `(1ULL << num_bits) - 1`. -/
def create_bit_mask (num_bits : Nat) : Nat :=
  (1 <<< num_bits) - 1

/-- `get_bit` of `ma_additional.c`: value of bit `bit_index` of the
packed buffer `source`. -/
def get_bit (source : List Nat) (bit_index : Nat) : Nat :=
  ((source.getD (bit_index / 64) 0) >>> (bit_index % 64)) &&& 1

/-- `set_bit` of `ma_additional.c`: sets (`bit_value == 1`) or clears
(otherwise) bit `bit_index` of block `block_index`; `~(1ULL << b)` is
`UINT64_MAX ^^^ (1 <<< b)`. -/
def set_bit (bit_value : Nat) (array : List Nat) (block_index bit_index : Nat) : List Nat :=
  if bit_value = 1 then
    array.set block_index ((array.getD block_index 0) ||| (1 <<< bit_index))
  else
    array.set block_index ((array.getD block_index 0) &&& (UINT64_MAX ^^^ (1 <<< bit_index)))

/-- `identity_function` of `ma_additional.c`: copies the state blocks to
the output buffer and masks the tail of the last block; returns the
output buffer unchanged on the guard. -/
def identity_function (output state : List Nat) (m s : Nat) : List Nat :=
  if s ≠ m ∨ m = 0 then output
  else
    let blocks := (m + 63) / 64
    let copied := (List.range blocks).map (fun i => state.getD i 0)
    if m % 64 ≠ 0 then
      copied.set (blocks - 1) ((copied.getD (blocks - 1) 0) &&& create_bit_mask (m % 64))
    else copied

/-- `ma_set_input` of `ma.c` on a valid (non-NULL) automaton and input
buffer: writes `input`'s bit into every *unconnected* input bit, returns
`0`; returns `-1` (errno `EINVAL` in C) when the automaton has no
inputs. -/
def ma_set_input (a : Moore) (input : List Nat) : Moore × Int :=
  if a.input_signals_num = 0 then (a, -1)
  else
    let inp :=
      (List.range a.input_signals_num).foldl
        (fun buf i =>
          if (a.incoming_connections i).isNone then
            set_bit (get_bit input i) buf (i / 64) (i % 64)
          else buf)
        a.input
    ({ a with input := inp }, 0)

/-- `ma_set_state` of `ma.c` on valid pointers: `memcpy`s
`(s + 63) / 64` whole blocks from `state` (tail bits included, no
masking), then recomputes the output by the output callback (again with
no masking). -/
def ma_set_state (a : Moore) (state : List Nat) : Moore :=
  let blocks := (a.state_signals_num + 63) / 64
  let st := (List.range blocks).map (fun i => state.getD i 0)
  { a with
    state := st
    output := a.output_function a.output st a.output_signals_num a.state_signals_num }

/-- `ma_get_output` of `ma.c` on a valid automaton. -/
def ma_get_output (a : Moore) : List Nat :=
  a.output

/-- Input buffer recomputed by `get_input` of `ma_additional.c`: for
every input bit with a live incoming connection, the *current* output
bit of the source (read through the output view `w`) is written into the
buffer; afterwards the tail of the last block is masked. -/
def refresh_input_buf (w : Nat → Option (List Nat)) (a : Moore) : List Nat :=
  let n := a.input_signals_num
  let buf :=
    (List.range n).foldl
      (fun buf i =>
        match a.incoming_connections i with
        | some (sid, sbit) =>
          match w sid with
          | some out => set_bit (get_bit out sbit) buf (i / 64) (i % 64)
          | none => buf
        | none => buf)
      a.input
  if n % 64 ≠ 0 then
    buf.set (n / 64) ((buf.getD (n / 64) 0) &&& create_bit_mask (n % 64))
  else buf

/-- `get_input` of `ma_additional.c` as a heap operation on automaton
`k` (a no-op on a NULL pointer). -/
def get_input (sys : Sys) (k : Nat) : Sys :=
  match sys k with
  | none => sys
  | some a => updSys sys k { a with input := refresh_input_buf (outview sys) a }

/-- New state buffer computed by `calculate_new_state`: the transition
callback writes into a zeroed scratch buffer of `state_blocks` blocks,
exactly `state_blocks` blocks are copied back, and the tail of the last
block is masked. -/
def next_state_of (a : Moore) : List Nat :=
  let state_blocks := (a.state_signals_num + 63) / 64
  let nextRaw :=
    a.transition_function (List.replicate state_blocks 0) a.input a.state
      a.input_signals_num a.state_signals_num
  let st := (List.range state_blocks).map (fun i => nextRaw.getD i 0)
  if a.state_signals_num % 64 ≠ 0 then
    st.set (state_blocks - 1) ((st.getD (state_blocks - 1) 0) &&& create_bit_mask (a.state_signals_num % 64))
  else st

/-- `calculate_new_state` of `ma_additional.c` on one automaton record
(the function only reads and writes fields of `a` itself): new masked
state, then the output callback on the new state, then the output tail
mask.  The scratch `calloc` is assumed to succeed. -/
def calculate_new_state (a : Moore) : Moore :=
  let output_blocks := (a.output_signals_num + 63) / 64
  let st := next_state_of a
  let out :=
    a.output_function a.output st a.output_signals_num a.state_signals_num
  let out2 :=
    if a.output_signals_num % 64 ≠ 0 then
      out.set (output_blocks - 1) ((out.getD (output_blocks - 1) 0) &&& create_bit_mask (a.output_signals_num % 64))
    else out
  { a with state := st, output := out2 }

/-- `calculate_new_state` lifted to the heap (no-op on NULL). -/
def step_automaton (sys : Sys) (k : Nat) : Sys :=
  match sys k with
  | none => sys
  | some a => updSys sys k (calculate_new_state a)

/-- `null_in_the_array` of `ma_additional.c`. -/
def null_in_the_array (sys : Sys) (l : List Nat) : Bool :=
  l.any (fun k => (sys k).isNone)

/-- First loop of `ma_step` ("set the inputs"). -/
def get_inputs_loop (sys : Sys) (l : List Nat) : Sys :=
  l.foldl get_input sys

/-- Second loop of `ma_step` ("calculate the new states"). -/
def calc_states_loop (sys : Sys) (l : List Nat) : Sys :=
  l.foldl step_automaton sys

/-- `ma_step` of `ma.c`: argument check, then the input-refresh loop
over the whole array, then the state-update loop over the whole
array. -/
def ma_step (sys : Sys) (l : List Nat) : Sys × Int :=
  if l.isEmpty || null_in_the_array sys l then (sys, -1)
  else (calc_states_loop (get_inputs_loop sys l) l, 0)

/-- The record produced for automaton `a` by the input-refresh phase
when the surrounding heap presents the output view of `sys`. -/
def refresh_rec (sys : Sys) (a : Moore) : Moore :=
  { a with input := refresh_input_buf (outview sys) a }

/-- The two `errno` values the connection layer can signal. -/
inductive ErrCode where
  | einval : ErrCode
  | enomem : ErrCode
deriving DecidableEq

/-- State threaded through the connection layer: the heap, the
allocation oracle (head = outcome of the next `malloc`; an empty list
means every allocation succeeds) and the last `errno` written. -/
structure CSt where
  sys : Sys
  oracle : List Bool
  errno : Option ErrCode

/-- Consume one allocation attempt from the oracle. -/
def popAlloc : List Bool → Bool × List Bool
  | [] => (true, [])
  | b :: r => (b, r)

/-- `remove_from_the_outgoing_list` of `ma_additional.c`: deletes the
first element with `aut_getting_signals = aIn` and
`bit_getting_signals = bit` (and frees it); a miss leaves the list
unchanged. -/
def remove_from_the_outgoing_list : List (Nat × Nat) → Nat → Nat → List (Nat × Nat)
  | [], _, _ => []
  | c :: rest, aIn, bit =>
    if c.1 = aIn ∧ c.2 = bit then rest
    else c :: remove_from_the_outgoing_list rest aIn bit

/-- `remove_the_connection` of `ma_additional.c` as a heap operation:
if input bit `bit` of automaton `aInId` is connected, the mirrored entry
is removed from the source's outgoing list and the incoming slot is
cleared (freed and set to NULL).  Guard failures (NULL automaton,
out-of-range bit) and missing connections leave the heap unchanged. -/
def remove_the_connection (sys : Sys) (aInId bit : Nat) : Sys :=
  match sys aInId with
  | none => sys
  | some a =>
    if bit ≥ a.input_signals_num then sys
    else
      match a.incoming_connections bit with
      | none => sys
      | some (srcId, srcBit) =>
        match sys srcId with
        | none => sys
        | some src =>
          let src' := { src with
            outgoing_connections :=
              updFun src.outgoing_connections srcBit
                (remove_from_the_outgoing_list (src.outgoing_connections srcBit) aInId bit) }
          let sys1 := updSys sys srcId src'
          match sys1 aInId with
          | none => sys1
          | some a1 =>
            updSys sys1 aInId
              { a1 with incoming_connections := updFun a1.incoming_connections bit none }

/-- `create_incoming_connection` of `ma_additional.c`: after the
guards, an already-occupied slot is freed and the mirrored entry is
removed from `givesId`'s outgoing list; then a new incoming node is
allocated (oracle consumed) and, on success, installed. -/
def create_incoming_connection (st : CSt) (getsId bit givesId srcBit : Nat) : CSt :=
  match st.sys getsId, st.sys givesId with
  | some gets, some gives =>
    if bit ≥ gets.input_signals_num ∨ srcBit ≥ gives.output_signals_num then
      { st with errno := some ErrCode.einval }
    else
      let st1 :=
        if (gets.incoming_connections bit).isSome then
          let gives2 :=
            { gives with
              outgoing_connections :=
                updFun gives.outgoing_connections srcBit
                  (remove_from_the_outgoing_list (gives.outgoing_connections srcBit) getsId bit) }
          { st with sys := updSys st.sys givesId gives2 }
        else st
      let p := popAlloc st1.oracle
      if p.1 then
        match st1.sys getsId with
        | some g =>
          { st1 with
            sys := updSys st1.sys getsId
              { g with incoming_connections := updFun g.incoming_connections bit (some (givesId, srcBit)) }
            oracle := p.2 }
        | none => { st1 with oracle := p.2 }
      else { st1 with oracle := p.2, errno := some ErrCode.enomem }
  | _, _ => { st with errno := some ErrCode.einval }

/-- `create_outgoing_connection` of `ma_additional.c`: after the
guards, the outgoing list is scanned for an existing entry for
`(getsId, bit)`; only if none is found is a node allocated (oracle
consumed) and, on success, prepended. -/
def create_outgoing_connection (st : CSt) (givesId srcBit getsId bit : Nat) : CSt :=
  match st.sys givesId, st.sys getsId with
  | some gives, some gets =>
    if srcBit ≥ gives.output_signals_num ∨ bit ≥ gets.input_signals_num then
      { st with errno := some ErrCode.einval }
    else
      if (gives.outgoing_connections srcBit).any (fun c => c.1 == getsId && c.2 == bit) then st
      else
        let p := popAlloc st.oracle
        if p.1 then
          { st with
            sys := updSys st.sys givesId
              { gives with
                outgoing_connections :=
                  updFun gives.outgoing_connections srcBit
                    ((getsId, bit) :: gives.outgoing_connections srcBit) }
            oracle := p.2 }
        else { st with oracle := p.2, errno := some ErrCode.enomem }
  | _, _ => { st with errno := some ErrCode.einval }

/-- Body of the `ma_connect` loop for one bit pair: conditional
`remove_the_connection`, then `create_incoming_connection`, then
`create_outgoing_connection`. -/
def connect_bit (st : CSt) (aInId bitIn aOutId bitOut : Nat) : CSt :=
  let st1 :=
    match st.sys aInId with
    | some a =>
      if (a.incoming_connections bitIn).isSome then
        { st with sys := remove_the_connection st.sys aInId bitIn }
      else st
    | none => st
  let st2 := create_incoming_connection st1 aInId bitIn aOutId bitOut
  create_outgoing_connection st2 aOutId bitOut aInId bitIn

/-- The `for (i = 0; i < num; i++)` loop of `ma_connect`; the bit
indices `in + i` and `out + i` wrap like `size_t`. -/
def connect_loop (aInId inS aOutId outS : Nat) : Nat → Nat → CSt → CSt
  | _, 0, st => st
  | i, num + 1, st =>
    connect_loop aInId inS aOutId outS (i + 1) num
      (connect_bit st aInId ((inS + i) % UINT64_MOD) aOutId ((outS + i) % UINT64_MOD))

/-- `ma_connect` of `ma.c`: the argument check computes `in + num` and
`out + num` in wrapping `size_t` arithmetic; on failure it returns `-1`
with errno `EINVAL`, otherwise it runs the loop and returns `0`
regardless of what happened inside the loop. -/
def ma_connect (st : CSt) (aInId inS aOutId outS num : Nat) : CSt × Int :=
  match st.sys aInId, st.sys aOutId with
  | some aIn, some aOut =>
    if num = 0 ∨ (inS + num) % UINT64_MOD > aIn.input_signals_num
        ∨ (outS + num) % UINT64_MOD > aOut.output_signals_num then
      ({ st with errno := some ErrCode.einval }, -1)
    else (connect_loop aInId inS aOutId outS 0 num st, 0)
  | _, _ => ({ st with errno := some ErrCode.einval }, -1)

/-- The `for` loop of `ma_disconnect` (indices wrap like `size_t`). -/
def disconnect_loop (aInId inS : Nat) : Nat → Nat → Sys → Sys
  | _, 0, sys => sys
  | i, num + 1, sys =>
    disconnect_loop aInId inS (i + 1) num
      (remove_the_connection sys aInId ((inS + i) % UINT64_MOD))

/-- `ma_disconnect` of `ma.c`: wrapping argument check, then
`remove_the_connection` on each bit of the range. -/
def ma_disconnect (sys : Sys) (aInId inS num : Nat) : Sys × Int :=
  match sys aInId with
  | some a =>
    if num = 0 ∨ (inS + num) % UINT64_MOD > a.input_signals_num then (sys, -1)
    else (disconnect_loop aInId inS 0 num sys, 0)
  | none => (sys, -1)

/-- One step of the inner loop of `clear_the_connections`: NULLs the
incoming slot `db` of automaton `d` (the C code frees the node without
checking whom it points to). -/
def clear_slot (sys : Sys) (d db : Nat) : Sys :=
  match sys d with
  | none => sys
  | some dr => updSys sys d { dr with incoming_connections := updFun dr.incoming_connections db none }

/-- One iteration of the outgoing loop of `clear_the_connections`:
walks the outgoing list of output bit `j` of automaton `A`, clearing
each receiver's incoming slot, then empties the list itself. -/
def clear_out_bit (sys : Sys) (A j : Nat) : Sys :=
  match sys A with
  | none => sys
  | some a =>
    let sys1 := (a.outgoing_connections j).foldl (fun s e => clear_slot s e.1 e.2) sys
    match sys1 A with
    | none => sys1
    | some a1 =>
      updSys sys1 A { a1 with outgoing_connections := updFun a1.outgoing_connections j [] }

/-- `clear_the_connections` of `ma_additional.c`: first
`remove_the_connection` on every input bit, then the outgoing loop on
every output bit. -/
def clear_the_connections (sys : Sys) (A : Nat) : Sys :=
  match sys A with
  | none => sys
  | some a =>
    let sys1 := (List.range a.input_signals_num).foldl (fun s i => remove_the_connection s A i) sys
    (List.range a.output_signals_num).foldl (fun s j => clear_out_bit s A j) sys1

/-- `ma_delete` of `ma.c`: a no-op on NULL, otherwise
`clear_the_connections` followed by freeing the automaton (removal from
the heap). -/
def ma_delete (sys : Sys) (A : Nat) : Sys :=
  match sys A with
  | none => sys
  | some _ =>
    let sys1 := clear_the_connections sys A
    fun k => if k = A then none else sys1 k

/-- A width-1 transition callback that copies the input buffer to the
next-state buffer (the automaton of the synchronicity test). -/
def copy_tf (_next input _state : List Nat) (_n _s : Nat) : List Nat :=
  input

/-- A transition callback that keeps the state unchanged. -/
def keep_tf (_next _input state : List Nat) (_n _s : Nat) : List Nat :=
  state

/-- Automaton A of the synchronicity test: one input, one output, one
state bit, state and output `1`, input bit 0 fed by output bit 0 of
automaton `1`, output bit 0 feeding input bit 0 of automaton `1`. -/
def autA : Moore :=
  { input_signals_num := 1
    output_signals_num := 1
    state_signals_num := 1
    state := [1]
    input := [0]
    output := [1]
    transition_function := copy_tf
    output_function := identity_function
    incoming_connections := fun i => if i = 0 then some (1, 0) else none
    outgoing_connections := fun j => if j = 0 then [(1, 0)] else [] }

/-- Automaton B of the synchronicity test: like `autA` but with state
and output `0` and wired to automaton `0`. -/
def autB : Moore :=
  { input_signals_num := 1
    output_signals_num := 1
    state_signals_num := 1
    state := [0]
    input := [0]
    output := [0]
    transition_function := copy_tf
    output_function := identity_function
    incoming_connections := fun i => if i = 0 then some (0, 0) else none
    outgoing_connections := fun j => if j = 0 then [(0, 0)] else [] }

/-- The two-automaton heap of the synchronicity test: `autA` at id 0,
`autB` at id 1. -/
def sysAB : Sys :=
  fun k => if k = 0 then some autA else if k = 1 then some autB else none

/-- An automaton with five state and five output bits and no inputs,
using the identity output function (the tail-masking test subject). -/
def aut5 : Moore :=
  { input_signals_num := 0
    output_signals_num := 5
    state_signals_num := 5
    state := [0]
    input := []
    output := [0]
    transition_function := keep_tf
    output_function := identity_function
    incoming_connections := fun _ => none
    outgoing_connections := fun _ => [] }

/-- A fresh unconnected one-input one-output automaton used in the
connection scenarios. -/
def plainAut : Moore :=
  { input_signals_num := 1
    output_signals_num := 1
    state_signals_num := 1
    state := [0]
    input := [0]
    output := [0]
    transition_function := copy_tf
    output_function := identity_function
    incoming_connections := fun _ => none
    outgoing_connections := fun _ => [] }

/-- Heap with two unconnected copies of `plainAut` at ids 0 and 1. -/
def sysPlain2 : Sys :=
  fun k => if k = 0 then some plainAut else if k = 1 then some plainAut else none

/-- Connection state in which the *first* link-node allocation of the
next connect fails and the second succeeds. -/
def stFailFirst : CSt :=
  { sys := sysPlain2, oracle := [false, true], errno := none }

/-- Connection state in which the first link-node allocation of the
next connect succeeds and the *second* fails. -/
def stFailSecond : CSt :=
  { sys := sysPlain2, oracle := [true, false], errno := none }

/-- A two-output, zero-input automaton (target of the wrap-around
connect test). -/
def autOut2 : Moore :=
  { input_signals_num := 0
    output_signals_num := 2
    state_signals_num := 2
    state := [0]
    input := []
    output := [0]
    transition_function := keep_tf
    output_function := identity_function
    incoming_connections := fun _ => none
    outgoing_connections := fun _ => [] }

/-- Heap of the wrap-around test: a one-input automaton at id 0 and a
two-output automaton at id 1. -/
def sysWrap : Sys :=
  fun k => if k = 0 then some plainAut else if k = 1 then some autOut2 else none

/-- Wrap-around connection state with an all-success oracle. -/
def stWrap : CSt :=
  { sys := sysWrap, oracle := [], errno := none }

/-- One-input automaton whose single input bit is connected to output
bit 0 of automaton 1. -/
def autCIn : Moore :=
  { input_signals_num := 1
    output_signals_num := 1
    state_signals_num := 1
    state := [0]
    input := [0]
    output := [0]
    transition_function := copy_tf
    output_function := identity_function
    incoming_connections := fun i => if i = 0 then some (1, 0) else none
    outgoing_connections := fun _ => [] }

/-- One-output automaton whose output bit 0 feeds input bit 0 of
automaton 0. -/
def autCOut : Moore :=
  { input_signals_num := 0
    output_signals_num := 1
    state_signals_num := 1
    state := [0]
    input := []
    output := [0]
    transition_function := keep_tf
    output_function := identity_function
    incoming_connections := fun _ => none
    outgoing_connections := fun j => if j = 0 then [(0, 0)] else [] }

/-- Heap with one live link: output 0 of automaton 1 → input 0 of
automaton 0 (subject of the wrap-around disconnect test). -/
def sysConn : Sys :=
  fun k => if k = 0 then some autCIn else if k = 1 then some autCOut else none

theorem updSys_apply (sys : Sys) (k : Nat) (a : Moore) (j : Nat) :
    updSys sys k a j = if j = k then some a else sys j := rfl

theorem updFun_apply {α : Type} (f : Nat → α) (i : Nat) (v : α) (j : Nat) :
    updFun f i v j = if j = i then v else f j := rfl

theorem outview_get_input (sys : Sys) (x j : Nat) :
    outview (get_input sys x) j = outview sys j := by
  unfold get_input
  cases hx : sys x with
  | none => rfl
  | some a =>
    by_cases hj : j = x
    · subst hj
      simp [outview, updSys_apply, hx]
    · simp [outview, updSys_apply, hj]

theorem outview_get_inputs_loop (l : List Nat) :
    ∀ (sys : Sys) (j : Nat), outview (get_inputs_loop sys l) j = outview sys j := by
  induction l with
  | nil => intro sys j; rfl
  | cons x rest ih =>
    intro sys j
    show outview (get_inputs_loop (get_input sys x) rest) j = outview sys j
    rw [ih (get_input sys x) j, outview_get_input]

theorem refresh_rec_get_input (sys : Sys) (x : Nat) :
    refresh_rec (get_input sys x) = refresh_rec sys := by
  have h : outview (get_input sys x) = outview sys := funext (outview_get_input sys x)
  unfold refresh_rec
  rw [h]

/-- After the input-refresh loop over a duplicate-free list, every
listed automaton carries the input recomputed from the *pre-loop*
output view, and every other automaton is untouched. -/
theorem get_inputs_loop_spec (l : List Nat) :
    ∀ (sys : Sys) (k : Nat), l.Nodup →
      get_inputs_loop sys l k =
        if k ∈ l then Option.map (refresh_rec sys) (sys k) else sys k := by
  induction l with
  | nil => intro sys k _; simp [get_inputs_loop]
  | cons x rest ih =>
    intro sys k hnd
    have hx : x ∉ rest := (List.nodup_cons.mp hnd).1
    have hrest : rest.Nodup := (List.nodup_cons.mp hnd).2
    show get_inputs_loop (get_input sys x) rest k = _
    rw [ih (get_input sys x) k hrest, refresh_rec_get_input]
    have hgi : get_input sys x k =
        if k = x then Option.map (refresh_rec sys) (sys x) else sys k := by
      unfold get_input
      cases hxv : sys x with
      | none =>
        by_cases hkx : k = x
        · subst hkx; simp [hxv]
        · simp [hkx]
      | some a =>
        by_cases hkx : k = x
        · subst hkx; simp [updSys_apply, hxv, refresh_rec]
        · simp [updSys_apply, hkx]
    by_cases hk : k ∈ rest
    · have hkx : k ≠ x := fun h => hx (h ▸ hk)
      simp [hk, hkx, hgi, List.mem_cons]
    · by_cases hkx : k = x
      · subst hkx
        simp [hk, hgi]
      · simp [hk, hkx, hgi, List.mem_cons]

/-- After the state-update loop, each automaton has undergone exactly
one `calculate_new_state` per occurrence of its id in the list. -/
theorem calc_states_loop_spec (l : List Nat) :
    ∀ (sys : Sys) (k : Nat),
      calc_states_loop sys l k =
        Option.map (fun a => calculate_new_state^[l.count k] a) (sys k) := by
  induction l with
  | nil =>
    intro sys k
    cases h : sys k <;> simp [calc_states_loop, h]
  | cons x rest ih =>
    intro sys k
    show calc_states_loop (step_automaton sys x) rest k = _
    rw [ih (step_automaton sys x) k]
    unfold step_automaton
    cases hxv : sys x with
    | none =>
      by_cases hkx : k = x
      · subst hkx; simp [hxv]
      · simp [List.count_cons_of_ne hkx]
    | some a =>
      by_cases hkx : k = x
      · subst hkx
        simp [updSys_apply, hxv, List.count_cons_self, Function.iterate_succ_apply]
      · simp only [updSys_apply, if_neg hkx]
        rw [List.count_cons_of_ne hkx]

/-- Heap used by the order-independence witness: two unconnected
automata at ids 0 and 1. -/
def sysW7 : Sys :=
  fun k => if k ≤ 1 then some plainAut else none

/-- Heap used by the duplicate-entry witness: one automaton at id 0. -/
def sysW9 : Sys :=
  fun k => if k = 0 then some plainAut else none

/-- C1: Step synchronicity.  On the concrete two-automaton loop
(`sysAB`: A at id 0 with state/output 1, B at id 1 with state/output 0,
each copying its input to its one-bit state, cross-connected), one
`ma_step` over `[0, 1]` gives A the pre-step output of B (`0`) and B
the pre-step output of A (`1`).  In general the input-refresh loop of
`ma_step` never changes any output (so phase 2 can only read pre-step
outputs), and over a duplicate-free list it rewrites each listed
automaton's input from the pre-step output view while phase 3 has not
yet run. -/
theorem ma_step_synchronicity :
    (outview (ma_step sysAB [0, 1]).1 0 = some [0]
      ∧ outview (ma_step sysAB [0, 1]).1 1 = some [1]
      ∧ outview sysAB 1 = some [0]
      ∧ outview sysAB 0 = some [1])
    ∧ (∀ (sys : Sys) (l : List Nat) (k : Nat),
        outview (get_inputs_loop sys l) k = outview sys k)
    ∧ (∀ (sys : Sys) (l : List Nat) (k : Nat), l.Nodup →
        get_inputs_loop sys l k =
          if k ∈ l then Option.map (refresh_rec sys) (sys k) else sys k) :=
  ⟨⟨by decide, by decide, by decide, by decide⟩,
    fun sys l k => outview_get_inputs_loop l sys k,
    fun sys l k h => get_inputs_loop_spec l sys k h⟩

/-- Witness for C1 at a concrete input discharging the duplicate-free
hypothesis of the last conjunct. -/
theorem ma_step_synchronicity_witness :
    ([0, 1] : List Nat).Nodup ∧
      get_inputs_loop sysAB [0, 1] 0 =
        (if (0 : Nat) ∈ ([0, 1] : List Nat) then
          Option.map (refresh_rec sysAB) (sysAB 0) else sysAB 0) :=
  ⟨by decide, ma_step_synchronicity.2.2 sysAB [0, 1] 0 (by decide)⟩

/-- C7: Step order-independence.  For a duplicate-free list of live
automata, `ma_step` over any permutation of the list returns the same
code and leaves every automaton of the heap in the same final state. -/
theorem ma_step_order_independence (sys : Sys) (l l' : List Nat)
    (hnd : l.Nodup) (hp : l.Perm l') (hv : ∀ k ∈ l, (sys k).isSome) :
    (ma_step sys l).2 = (ma_step sys l').2 ∧
      ∀ k, (ma_step sys l).1 k = (ma_step sys l').1 k := by
  by_cases hemp : l = []
  · subst hemp
    have : l' = [] := hp.symm.eq_nil
    subst this
    exact ⟨rfl, fun k => rfl⟩
  · have hemp' : l' ≠ [] := fun h => hemp ((h ▸ hp).eq_nil)
    have hnull : null_in_the_array sys l = false := by
      simp only [null_in_the_array, List.any_eq_false]
      intro x hx
      rcases Option.isSome_iff_exists.mp (hv x hx) with ⟨a, ha⟩
      simp [ha]
    have hnull' : null_in_the_array sys l' = false := by
      simp only [null_in_the_array, List.any_eq_false]
      intro x hx
      rcases Option.isSome_iff_exists.mp (hv x ((hp.mem_iff).mpr hx)) with ⟨a, ha⟩
      simp [ha]
    have he1 : l.isEmpty = false := by simpa [List.isEmpty_iff] using hemp
    have he2 : l'.isEmpty = false := by simpa [List.isEmpty_iff] using hemp'
    have hred : ma_step sys l = (calc_states_loop (get_inputs_loop sys l) l, 0) := by
      simp [ma_step, hnull, he1]
    have hred' : ma_step sys l' = (calc_states_loop (get_inputs_loop sys l') l', 0) := by
      simp [ma_step, hnull', he2]
    rw [hred, hred']
    refine ⟨rfl, fun k => ?_⟩
    show calc_states_loop (get_inputs_loop sys l) l k = calc_states_loop (get_inputs_loop sys l') l' k
    rw [calc_states_loop_spec, calc_states_loop_spec,
      get_inputs_loop_spec l sys k hnd, get_inputs_loop_spec l' sys k (hp.nodup hnd),
      hp.count_eq k]
    by_cases hk : k ∈ l
    · simp [hk, (hp.mem_iff).mp hk]
    · have hk' : k ∉ l' := fun h => hk ((hp.mem_iff).mpr h)
      simp [hk, hk']

/-- Witness for C7: swapping the two-automaton list `[0, 1]` gives the
same step result on `sysW7`. -/
theorem ma_step_order_independence_witness :
    ([0, 1] : List Nat).Nodup ∧ ([0, 1] : List Nat).Perm [1, 0] ∧
      (ma_step sysW7 [0, 1]).2 = (ma_step sysW7 [1, 0]).2 ∧
      (ma_step sysW7 [0, 1]).1 0 = (ma_step sysW7 [1, 0]).1 0 :=
  ⟨by decide, List.Perm.swap 1 0 [],
    (ma_step_order_independence sysW7 [0, 1] [1, 0] (by decide)
      (List.Perm.swap 1 0 []) (by decide)).1,
    (ma_step_order_independence sysW7 [0, 1] [1, 0] (by decide)
      (List.Perm.swap 1 0 []) (by decide)).2 0⟩

/-- C9: duplicate entries in the step list multiply-step an automaton.
A valid `ma_step` call is not rejected (returns `0`) and leaves each
automaton `k` stepped `l.count k` times on top of the input-refresh
phase — one `calculate_new_state` per occurrence of `k` in the array,
with no deduplication. -/
theorem ma_step_duplicate_entries (sys : Sys) (l : List Nat) (k : Nat)
    (hne : l.isEmpty = false) (hnull : null_in_the_array sys l = false) :
    (ma_step sys l).2 = 0 ∧
      (ma_step sys l).1 k =
        Option.map (fun a => calculate_new_state^[l.count k] a)
          (get_inputs_loop sys l k) := by
  have hred : ma_step sys l = (calc_states_loop (get_inputs_loop sys l) l, 0) := by
    simp [ma_step, hne, hnull]
  rw [hred]
  exact ⟨rfl, calc_states_loop_spec l (get_inputs_loop sys l) k⟩

/-- Witness for C9: the automaton at id 0 listed twice is stepped
twice by one call. -/
theorem ma_step_duplicate_entries_witness :
    ([0, 0] : List Nat).isEmpty = false ∧ null_in_the_array sysW9 [0, 0] = false ∧
      ((ma_step sysW9 [0, 0]).2 = 0 ∧
        (ma_step sysW9 [0, 0]).1 0 =
          Option.map (fun a => calculate_new_state^[([0, 0] : List Nat).count 0] a)
            (get_inputs_loop sysW9 [0, 0] 0)) :=
  ⟨by decide, by decide, ma_step_duplicate_entries sysW9 [0, 0] 0 (by decide) (by decide)⟩

theorem getD_set_self {l : List Nat} {i : Nat} (v : Nat) (h : i < l.length) :
    (l.set i v).getD i 0 = v := by
  simp [List.getD_eq_getElem?_getD, List.getElem?_set_eq_of_lt, h]

theorem getD_set_ne {l : List Nat} {i j : Nat} (v : Nat) (h : j ≠ i) :
    (l.set i v).getD j 0 = l.getD j 0 := by
  simp [List.getD_eq_getElem?_getD, List.getElem?_set_ne (Ne.symm h)]

theorem length_set_bit (v : Nat) (arr : List Nat) (b idx : Nat) :
    (set_bit v arr b idx).length = arr.length := by
  unfold set_bit; split <;> simp

theorem UINT64_MAX_eq : UINT64_MAX = 2 ^ 64 - 1 := by norm_num [UINT64_MAX]

theorem get_bit_eq_testBit (src : List Nat) (i : Nat) :
    get_bit src i = ((src.getD (i / 64) 0).testBit (i % 64)).toNat := by
  unfold get_bit
  rw [Nat.and_one_is_mod, Nat.shiftRight_eq_div_pow, Nat.testBit_to_div_mod]
  rcases Nat.mod_two_eq_zero_or_one (src.getD (i / 64) 0 / 2 ^ (i % 64)) with h | h <;>
    rw [h] <;> rfl

theorem get_bit_le_one (src : List Nat) (i : Nat) : get_bit src i ≤ 1 := by
  unfold get_bit
  rw [Nat.and_one_is_mod]
  omega

/-- Reading back after `set_bit` at bit `j` (addressed the way every
caller in the code addresses it, by block `j / 64` and offset
`j % 64`): bit `j` now holds `v`, every other bit of the buffer is
unchanged. -/
theorem get_bit_set_bit (v : Nat) (arr : List Nat) (j i : Nat) (hv : v ≤ 1)
    (hj : j / 64 < arr.length) :
    get_bit (set_bit v arr (j / 64) (j % 64)) i = if i = j then v else get_bit arr i := by
  have hb : j % 64 < 64 := Nat.mod_lt _ (by norm_num)
  rw [get_bit_eq_testBit, get_bit_eq_testBit]
  by_cases hblock : i / 64 = j / 64
  · have hget : (set_bit v arr (j / 64) (j % 64)).getD (i / 64) 0 =
        (if v = 1 then (arr.getD (j / 64) 0) ||| (1 <<< (j % 64))
         else (arr.getD (j / 64) 0) &&& (UINT64_MAX ^^^ (1 <<< (j % 64)))) := by
      unfold set_bit
      split <;> rw [hblock] <;> exact getD_set_self _ hj
    rw [hget]
    by_cases hij : i = j
    · subst hij
      simp only [if_pos rfl]
      by_cases hv1 : v = 1
      · subst hv1
        rw [if_pos rfl, Nat.testBit_or, Nat.shiftLeft_eq, one_mul,
          Nat.testBit_two_pow_self]
        simp
      · have hv0 : v = 0 := by omega
        subst hv0
        rw [if_neg (by norm_num), Nat.testBit_and, Nat.testBit_xor,
          Nat.shiftLeft_eq, one_mul, Nat.testBit_two_pow_self, UINT64_MAX_eq,
          Nat.testBit_two_pow_sub_one]
        simp [hb]
    · have hoff : i % 64 ≠ j % 64 := by
        intro h
        exact hij (by omega)
      rw [if_neg hij, hblock]
      split
      · rw [Nat.testBit_or, Nat.shiftLeft_eq, one_mul,
          Nat.testBit_two_pow_of_ne (Ne.symm hoff)]
        simp
      · rw [Nat.testBit_and, Nat.testBit_xor, Nat.shiftLeft_eq, one_mul,
          Nat.testBit_two_pow_of_ne (Ne.symm hoff), UINT64_MAX_eq,
          Nat.testBit_two_pow_sub_one]
        have hc : i % 64 < 64 := Nat.mod_lt _ (by norm_num)
        simp [hc]
  · have hij : i ≠ j := by
      intro h
      exact hblock (by rw [h])
    have hget : (set_bit v arr (j / 64) (j % 64)).getD (i / 64) 0 = arr.getD (i / 64) 0 := by
      unfold set_bit
      split <;> exact getD_set_ne _ hblock
    rw [hget, if_neg hij]

theorem ma_set_input_fold_length (a : Moore) (bits : List Nat) :
    ∀ (l : List Nat) (buf : List Nat),
      (l.foldl
        (fun buf i =>
          if (a.incoming_connections i).isNone then
            set_bit (get_bit bits i) buf (i / 64) (i % 64)
          else buf) buf).length = buf.length := by
  intro l
  induction l with
  | nil => intro buf; rfl
  | cons x rest ih =>
    intro buf
    rw [List.foldl_cons, ih]
    split
    · rw [length_set_bit]
    · rfl

theorem ma_set_input_fold_get (a : Moore) (bits : List Nat)
    (hlen : a.input.length = (a.input_signals_num + 63) / 64) :
    ∀ N, N ≤ a.input_signals_num → ∀ i,
      get_bit
        ((List.range N).foldl
          (fun buf i =>
            if (a.incoming_connections i).isNone then
              set_bit (get_bit bits i) buf (i / 64) (i % 64)
            else buf) a.input) i =
        if i < N ∧ (a.incoming_connections i).isNone then get_bit bits i
        else get_bit a.input i := by
  intro N
  induction N with
  | zero => intro _ i; simp
  | succ N ih =>
    intro hN i
    rw [List.range_succ, List.foldl_append, List.foldl_cons, List.foldl_nil]
    by_cases hconn : (a.incoming_connections N).isNone
    · rw [if_pos hconn]
      have hblock : N / 64 <
          ((List.range N).foldl
            (fun buf i =>
              if (a.incoming_connections i).isNone then
                set_bit (get_bit bits i) buf (i / 64) (i % 64)
              else buf) a.input).length := by
        rw [ma_set_input_fold_length, hlen]
        omega
      rw [get_bit_set_bit _ _ _ _ (get_bit_le_one bits N) hblock]
      by_cases hi : i = N
      · subst hi
        simp [hconn]
      · rw [if_neg hi, ih (by omega) i]
        by_cases hlt : i < N
        · simp [hlt, Nat.lt_succ_of_lt hlt]
        · have : ¬ i < N + 1 := by omega
          simp [hlt, this]
    · rw [if_neg hconn, ih (by omega) i]
      by_cases hlt : i < N
      · simp [hlt, Nat.lt_succ_of_lt hlt]
      · have hne : ¬ (i < N ∧ (a.incoming_connections i).isNone) := fun h => hlt h.1
        rw [if_neg hne]
        by_cases hi : i = N
        · subst hi
          simp [hconn]
        · have : ¬ (i < N + 1 ∧ (a.incoming_connections i).isNone) := by
            intro h
            rcases Nat.lt_succ_iff_lt_or_eq.mp h.1 with h' | h'
            · exact hlt h'
            · exact hi h'
          rw [if_neg this]

/-- C5: `ma_set_input` frame.  For an automaton with at least one input
bit (and a correctly sized input buffer), `ma_set_input` succeeds,
copies bit `i` of `bits` into the input buffer exactly for the input
bits without an incoming link, leaves every connected bit (and every
bit beyond the input width) unchanged, and modifies no other field of
the automaton. -/
theorem ma_set_input_frame (a : Moore) (bits : List Nat)
    (hn : 0 < a.input_signals_num)
    (hlen : a.input.length = (a.input_signals_num + 63) / 64) :
    (ma_set_input a bits).2 = 0 ∧
      (∀ i, i < a.input_signals_num →
        get_bit (ma_set_input a bits).1.input i =
          if (a.incoming_connections i).isNone then get_bit bits i
          else get_bit a.input i) ∧
      (∀ i, a.input_signals_num ≤ i →
        get_bit (ma_set_input a bits).1.input i = get_bit a.input i) ∧
      (ma_set_input a bits).1.input_signals_num = a.input_signals_num ∧
      (ma_set_input a bits).1.output_signals_num = a.output_signals_num ∧
      (ma_set_input a bits).1.state_signals_num = a.state_signals_num ∧
      (ma_set_input a bits).1.state = a.state ∧
      (ma_set_input a bits).1.output = a.output ∧
      (ma_set_input a bits).1.transition_function = a.transition_function ∧
      (ma_set_input a bits).1.output_function = a.output_function ∧
      (ma_set_input a bits).1.incoming_connections = a.incoming_connections ∧
      (ma_set_input a bits).1.outgoing_connections = a.outgoing_connections := by
  have hne : a.input_signals_num ≠ 0 := Nat.pos_iff_ne_zero.mp hn
  unfold ma_set_input
  rw [if_neg hne]
  refine ⟨rfl, ?_, ?_, rfl, rfl, rfl, rfl, rfl, rfl, rfl, rfl, rfl⟩
  · intro i hi
    have h := ma_set_input_fold_get a bits hlen a.input_signals_num (le_refl _) i
    rw [h]
    by_cases hconn : (a.incoming_connections i).isNone
    · simp [hi, hconn]
    · simp [hconn]
  · intro i hi
    have h := ma_set_input_fold_get a bits hlen a.input_signals_num (le_refl _) i
    rw [h]
    have : ¬ (i < a.input_signals_num ∧ (a.incoming_connections i).isNone) := by
      intro h'
      omega
    rw [if_neg this]

/-- Two-input automaton whose input bit 1 is connected (witness subject
for the `ma_set_input` frame). -/
def autW5 : Moore :=
  { input_signals_num := 2
    output_signals_num := 1
    state_signals_num := 1
    state := [0]
    input := [0]
    output := [0]
    transition_function := copy_tf
    output_function := identity_function
    incoming_connections := fun i => if i = 1 then some (1, 0) else none
    outgoing_connections := fun _ => [] }

/-- Witness for C5: on `autW5` with `bits = [3]`, the unconnected bit 0
receives `bits`'s bit and the connected bit 1 keeps its old value. -/
theorem ma_set_input_frame_witness :
    0 < autW5.input_signals_num ∧
      autW5.input.length = (autW5.input_signals_num + 63) / 64 ∧
      get_bit (ma_set_input autW5 [3]).1.input 0 =
        (if (autW5.incoming_connections 0).isNone then get_bit [3] 0
         else get_bit autW5.input 0) ∧
      get_bit (ma_set_input autW5 [3]).1.input 1 =
        (if (autW5.incoming_connections 1).isNone then get_bit [3] 1
         else get_bit autW5.input 1) :=
  ⟨by decide, by decide,
    (ma_set_input_frame autW5 [3] (by decide) (by decide)).2.1 0 (by decide),
    (ma_set_input_frame autW5 [3] (by decide) (by decide)).2.1 1 (by decide)⟩

theorem create_bit_mask_eq (w : Nat) : create_bit_mask w = 2 ^ w - 1 := by
  unfold create_bit_mask
  rw [Nat.shiftLeft_eq, one_mul]

/-- Bits at or above `width` inside the block range of a buffer whose
last block has just been masked with `create_bit_mask (width % 64)` are
zero. -/
theorem get_bit_tail_mask (l : List Nat) (width i : Nat)
    (hlen : l.length = (width + 63) / 64)
    (h1 : width ≤ i) (h2 : i < 64 * ((width + 63) / 64)) :
    get_bit
      (l.set ((width + 63) / 64 - 1)
        ((l.getD ((width + 63) / 64 - 1) 0) &&& create_bit_mask (width % 64))) i = 0 := by
  have hmod : width % 64 ≠ 0 := by omega
  have hblock : i / 64 = (width + 63) / 64 - 1 := by omega
  have hoff : ¬ (i % 64 < width % 64) := by omega
  have hlt : (width + 63) / 64 - 1 < l.length := by omega
  rw [get_bit_eq_testBit, hblock, getD_set_self _ hlt, create_bit_mask_eq,
    Nat.testBit_and, Nat.testBit_two_pow_sub_one]
  simp [hoff]

theorem refresh_fold_length (w : Nat → Option (List Nat)) (a : Moore) :
    ∀ (l : List Nat) (buf : List Nat),
      (l.foldl
        (fun buf i =>
          match a.incoming_connections i with
          | some (sid, sbit) =>
            match w sid with
            | some out => set_bit (get_bit out sbit) buf (i / 64) (i % 64)
            | none => buf
          | none => buf) buf).length = buf.length := by
  intro l
  induction l with
  | nil => intro buf; rfl
  | cons x rest ih =>
    intro buf
    rw [List.foldl_cons, ih]
    cases a.incoming_connections x with
    | none => rfl
    | some p =>
      obtain ⟨sid, sbit⟩ := p
      show (match w sid with
            | some out => set_bit (get_bit out sbit) buf (x / 64) (x % 64)
            | none => buf).length = buf.length
      cases w sid with
      | none => rfl
      | some out => exact length_set_bit _ _ _ _

theorem get_bit_mask_ite (st : List Nat) (width i : Nat)
    (hlen : st.length = (width + 63) / 64)
    (h1 : width ≤ i) (h2 : i < 64 * ((width + 63) / 64)) :
    get_bit
      (if width % 64 ≠ 0 then
        st.set ((width + 63) / 64 - 1)
          ((st.getD ((width + 63) / 64 - 1) 0) &&& create_bit_mask (width % 64))
      else st) i = 0 := by
  have hmod : width % 64 ≠ 0 := by omega
  rw [if_pos hmod]
  exact get_bit_tail_mask st width i hlen h1 h2

theorem calculate_new_state_state_tail (a : Moore) (i : Nat)
    (h1 : a.state_signals_num ≤ i)
    (h2 : i < 64 * ((a.state_signals_num + 63) / 64)) :
    get_bit (calculate_new_state a).state i = 0 := by
  have hst : (calculate_new_state a).state = next_state_of a := rfl
  rw [hst]
  unfold next_state_of
  exact get_bit_mask_ite _ a.state_signals_num i (by simp) h1 h2

theorem calculate_new_state_output_tail (a : Moore) (i : Nat)
    (hy : (a.output_function a.output (next_state_of a) a.output_signals_num
        a.state_signals_num).length = (a.output_signals_num + 63) / 64)
    (h1 : a.output_signals_num ≤ i)
    (h2 : i < 64 * ((a.output_signals_num + 63) / 64)) :
    get_bit (calculate_new_state a).output i = 0 := by
  show get_bit
      (if a.output_signals_num % 64 ≠ 0 then
        (a.output_function a.output (next_state_of a) a.output_signals_num
            a.state_signals_num).set ((a.output_signals_num + 63) / 64 - 1)
          (((a.output_function a.output (next_state_of a) a.output_signals_num
              a.state_signals_num).getD ((a.output_signals_num + 63) / 64 - 1) 0) &&&
            create_bit_mask (a.output_signals_num % 64))
      else a.output_function a.output (next_state_of a) a.output_signals_num
        a.state_signals_num) i = 0
  exact get_bit_mask_ite _ a.output_signals_num i hy h1 h2

theorem refresh_input_buf_tail (w : Nat → Option (List Nat)) (a : Moore) (i : Nat)
    (hlen : a.input.length = (a.input_signals_num + 63) / 64)
    (h1 : a.input_signals_num ≤ i)
    (h2 : i < 64 * ((a.input_signals_num + 63) / 64)) :
    get_bit (refresh_input_buf w a) i = 0 := by
  have hmod : a.input_signals_num % 64 ≠ 0 := by omega
  have hidx : a.input_signals_num / 64 = (a.input_signals_num + 63) / 64 - 1 := by omega
  unfold refresh_input_buf
  rw [if_pos hmod, hidx]
  refine get_bit_tail_mask _ a.input_signals_num i ?_ h1 h2
  rw [refresh_fold_length]
  exact hlen

/-- C3 counterexample: `ma_set_state` copies the caller's words
verbatim.  On `aut5` (5 state bits, one storage word) with a source
word whose bit 63 is set, bit 63 of the state buffer is `1` after the
call although `63 ≥ stateCount = 5` — the tail of the state word is
not masked by this mutating operation. -/
theorem ma_set_state_tail_violation :
    aut5.state_signals_num = 5 ∧ (5 : Nat) ≤ 63 ∧
      get_bit (ma_set_state aut5 [9223372036854775808]).state 63 = 1 := by
  refine ⟨rfl, by norm_num, ?_⟩
  decide

/-- C3 (amended): the tail bits that the engine itself masks are indeed
zero after the masking operations: bits at positions `≥ stateCount`
inside the state blocks after `calculate_new_state`; bits `≥
outputCount` inside the output blocks after `calculate_new_state`
(provided the output callback returned a buffer of the allocated output
length, as the callback contract requires); and bits `≥ inputCount`
inside the input blocks after the input refresh of `get_input`.
`ma_set_state`, by contrast, performs no masking (see the
counterexample), so the claim holds only for the masking operations,
not after every mutating operation. -/
theorem tail_masking_amended :
    (∀ (a : Moore) (i : Nat), a.state_signals_num ≤ i →
      i < 64 * ((a.state_signals_num + 63) / 64) →
      get_bit (calculate_new_state a).state i = 0)
    ∧ (∀ (a : Moore) (i : Nat),
        (a.output_function a.output (next_state_of a) a.output_signals_num
          a.state_signals_num).length = (a.output_signals_num + 63) / 64 →
        a.output_signals_num ≤ i →
        i < 64 * ((a.output_signals_num + 63) / 64) →
        get_bit (calculate_new_state a).output i = 0)
    ∧ (∀ (w : Nat → Option (List Nat)) (a : Moore) (i : Nat),
        a.input.length = (a.input_signals_num + 63) / 64 →
        a.input_signals_num ≤ i →
        i < 64 * ((a.input_signals_num + 63) / 64) →
        get_bit (refresh_input_buf w a) i = 0) :=
  ⟨fun a i h1 h2 => calculate_new_state_state_tail a i h1 h2,
    fun a i hy h1 h2 => calculate_new_state_output_tail a i hy h1 h2,
    fun w a i hlen h1 h2 => refresh_input_buf_tail w a i hlen h1 h2⟩

/-- Witness for C3 (amended) at concrete automata: state bit 63 and
output bit 7 of `aut5` after `calculate_new_state`, and input bit 3 of
`autA` after a refresh against `sysAB`, are all zero. -/
theorem tail_masking_amended_witness :
    aut5.state_signals_num ≤ 63 ∧
      get_bit (calculate_new_state aut5).state 63 = 0 ∧
      (aut5.output_function aut5.output (next_state_of aut5) aut5.output_signals_num
        aut5.state_signals_num).length = (aut5.output_signals_num + 63) / 64 ∧
      get_bit (calculate_new_state aut5).output 7 = 0 ∧
      autA.input.length = (autA.input_signals_num + 63) / 64 ∧
      get_bit (refresh_input_buf (outview sysAB) autA) 3 = 0 :=
  ⟨by decide,
    tail_masking_amended.1 aut5 63 (by decide) (by decide),
    by decide,
    tail_masking_amended.2.1 aut5 7 (by decide) (by decide) (by decide),
    by decide,
    tail_masking_amended.2.2 (outview sysAB) autA 3 (by decide) (by decide) (by decide)⟩

/-- C4: when the outgoing link-node allocation fails partway through
`ma_connect` (state `stFailSecond`: first allocation succeeds, second
fails), the call signals `ENOMEM` through errno — but, contradicting
the claim and the function's own documentation, it still returns `0`,
not `-1`: the loop never checks the helpers' failures. -/
theorem ma_connect_alloc_failure_returns_zero :
    (ma_connect stFailSecond 0 0 1 0 1).1.errno = some ErrCode.enomem ∧
      (ma_connect stFailSecond 0 0 1 0 1).2 = 0 ∧
      ¬ (ma_connect stFailSecond 0 0 1 0 1).2 = -1 := by
  refine ⟨by decide, by decide, by decide⟩

/-- C6: the range check of `ma_disconnect` computes `in + num` in
wrapping `size_t` arithmetic.  On `sysConn` (one input bit, connected)
with `in = 2^64 - 1` and `num = 2` the mathematical sum exceeds the
input count, yet the call returns `0` instead of `-1` — and it even
disconnects input bit 0, whose index the loop reaches by wrapping — so
the claimed rejection with an unchanged graph does not happen. -/
theorem ma_disconnect_overflow_check_passes :
    (18446744073709551615 : Nat) + 2 > 1 ∧
      ((sysConn 0).map Moore.input_signals_num) = some 1 ∧
      incomingOf sysConn 0 0 = some (1, 0) ∧
      (ma_disconnect sysConn 0 18446744073709551615 2).2 = 0 ∧
      incomingOf (ma_disconnect sysConn 0 18446744073709551615 2).1 0 0 = none := by
  refine ⟨by decide, by decide, by decide, by decide, by decide⟩

/-- C10: range validation wraps modulo `2^64`.  With
`inputStart = 2^64 - 1` and `count = 2` on automata with 1 input bit
and 2 output bits, the wrapped sums pass the checks of both
`ma_connect` and `ma_disconnect`, and neither call returns `-1`. -/
theorem range_check_wraps_modulo :
    (18446744073709551615 : Nat) + 2 > 1 ∧
      ((stWrap.sys 0).map Moore.input_signals_num) = some 1 ∧
      (18446744073709551615 + 2) % UINT64_MOD = 1 ∧
      (ma_connect stWrap 0 18446744073709551615 1 0 2).2 = 0 ∧
      (ma_disconnect sysWrap 0 18446744073709551615 2).2 = 0 := by
  refine ⟨by decide, by decide, by decide, by decide, by decide⟩

theorem remove_from_sublist (l : List (Nat × Nat)) (a b : Nat) :
    List.Sublist (remove_from_the_outgoing_list l a b) l := by
  induction l with
  | nil => exact List.Sublist.refl []
  | cons c rest ih =>
    unfold remove_from_the_outgoing_list
    split
    · exact List.sublist_cons_self c rest
    · exact List.Sublist.cons₂ c ih

theorem remove_from_nodup {l : List (Nat × Nat)} (a b : Nat) (h : l.Nodup) :
    (remove_from_the_outgoing_list l a b).Nodup :=
  h.sublist (remove_from_sublist l a b)

theorem mem_of_mem_remove_from {x : Nat × Nat} {l : List (Nat × Nat)} {a b : Nat} :
    x ∈ remove_from_the_outgoing_list l a b → x ∈ l :=
  fun h => (remove_from_sublist l a b).mem h

theorem mem_remove_from_of_ne {x : Nat × Nat} {l : List (Nat × Nat)} {a b : Nat}
    (hne : x ≠ (a, b)) : x ∈ remove_from_the_outgoing_list l a b ↔ x ∈ l := by
  induction l with
  | nil => rfl
  | cons c rest ih =>
    unfold remove_from_the_outgoing_list
    split
    · rename_i hc
      have : c = (a, b) := Prod.ext_iff.mpr hc
      subst this
      simp [List.mem_cons, hne]
    · rename_i hc
      simp [List.mem_cons, ih]

theorem not_mem_remove_from_self {l : List (Nat × Nat)} {a b : Nat} (h : l.Nodup) :
    (a, b) ∉ remove_from_the_outgoing_list l a b := by
  induction l with
  | nil => simp [remove_from_the_outgoing_list]
  | cons c rest ih =>
    unfold remove_from_the_outgoing_list
    split
    · rename_i hc
      have : c = (a, b) := Prod.ext_iff.mpr hc
      subst this
      exact (List.nodup_cons.mp h).1
    · rename_i hc
      intro hmem
      rcases List.mem_cons.mp hmem with h' | h'
      · exact hc ⟨congrArg Prod.fst h'.symm, congrArg Prod.snd h'.symm⟩
      · exact ih (List.nodup_cons.mp h).2 h'

/-- Record transformer: remove the mirrored entry `(A, bit)` from the
outgoing list of output bit `sb`. -/
def erase_out (r : Moore) (sb A bit : Nat) : Moore :=
  { r with
    outgoing_connections :=
      updFun r.outgoing_connections sb
        (remove_from_the_outgoing_list (r.outgoing_connections sb) A bit) }

/-- Record transformer: clear the incoming slot `bit`. -/
def clear_inc (r : Moore) (bit : Nat) : Moore :=
  { r with incoming_connections := updFun r.incoming_connections bit none }

/-- Per-automaton effect of `remove_the_connection`: automaton `X`'s
record loses the mirrored entry when `X` is the source `S` and has its
incoming slot cleared when `X` is the caller `A`. -/
def remove_fun (A bit S sb X : Nat) (r : Moore) : Moore :=
  let r1 := if X = S then erase_out r sb A bit else r
  if X = A then clear_inc r1 bit else r1

/-- Explicit form of `remove_the_connection` in its effective case. -/
theorem remove_the_connection_char (sys : Sys) (A bit : Nat) (a : Moore)
    (hA : sys A = some a) (hbit : ¬ bit ≥ a.input_signals_num)
    (S sb : Nat) (hinc : a.incoming_connections bit = some (S, sb))
    (src : Moore) (hS : sys S = some src) (X : Nat) :
    remove_the_connection sys A bit X =
      Option.map (remove_fun A bit S sb X) (sys X) := by
  unfold remove_fun
  simp only [remove_the_connection, hA, hinc, hS, if_neg hbit]
  by_cases hAS : A = S
  · subst hAS
    have ha : a = src := by
      rw [hA] at hS
      injection hS
    subst ha
    simp only [updSys_apply, if_pos rfl]
    by_cases hX : X = A
    · subst hX
      simp [updSys_apply, hA, erase_out, clear_inc]
    · simp only [updSys_apply, if_neg hX]
      cases hsx : sys X <;> simp [updSys_apply, hX, hsx]
  · simp only [updSys_apply, if_neg hAS, hA]
    by_cases hX : X = A
    · subst hX
      simp [updSys_apply, hA, hAS, Ne.symm hAS, erase_out, clear_inc]
    · by_cases hXS : X = S
      · subst hXS
        simp [updSys_apply, hX, hS, hAS, Ne.symm hAS, erase_out]
      · simp only [updSys_apply, if_neg hX, if_neg hXS]
        cases hsx : sys X <;> simp [updSys_apply, hX, hXS, hsx]

theorem remove_the_connection_cases (sys : Sys) (A bit : Nat) :
    remove_the_connection sys A bit = sys ∨
      ∃ a S sb src, sys A = some a ∧ ¬ bit ≥ a.input_signals_num ∧
        a.incoming_connections bit = some (S, sb) ∧ sys S = some src := by
  cases hA : sys A with
  | none => exact Or.inl (by simp only [remove_the_connection, hA])
  | some a =>
    by_cases hb : bit ≥ a.input_signals_num
    · exact Or.inl (by simp only [remove_the_connection, hA, if_pos hb])
    · cases hinc : a.incoming_connections bit with
      | none => exact Or.inl (by simp only [remove_the_connection, hA, if_neg hb, hinc])
      | some p =>
        obtain ⟨S, sb⟩ := p
        cases hS : sys S with
        | none => exact Or.inl (by simp only [remove_the_connection, hA, if_neg hb, hinc, hS])
        | some src => exact Or.inr ⟨a, S, sb, src, rfl, hb, hinc, hS⟩

theorem clear_inc_outgoing (r : Moore) (bit : Nat) :
    (clear_inc r bit).outgoing_connections = r.outgoing_connections := rfl

theorem clear_inc_incoming (r : Moore) (bit : Nat) :
    (clear_inc r bit).incoming_connections = updFun r.incoming_connections bit none := rfl

theorem erase_out_incoming (r : Moore) (sb A bit : Nat) :
    (erase_out r sb A bit).incoming_connections = r.incoming_connections := rfl

theorem erase_out_outgoing (r : Moore) (sb A bit : Nat) :
    (erase_out r sb A bit).outgoing_connections =
      updFun r.outgoing_connections sb
        (remove_from_the_outgoing_list (r.outgoing_connections sb) A bit) := rfl

theorem clear_inc_in_num (r : Moore) (bit : Nat) :
    (clear_inc r bit).input_signals_num = r.input_signals_num := rfl

theorem clear_inc_out_num (r : Moore) (bit : Nat) :
    (clear_inc r bit).output_signals_num = r.output_signals_num := rfl

theorem erase_out_in_num (r : Moore) (sb A bit : Nat) :
    (erase_out r sb A bit).input_signals_num = r.input_signals_num := rfl

theorem erase_out_out_num (r : Moore) (sb A bit : Nat) :
    (erase_out r sb A bit).output_signals_num = r.output_signals_num := rfl

/-- C8 invariant: every outgoing list of every live automaton is
duplicate-free (at most one entry per destination pair). -/
def UniqOut (sys : Sys) : Prop :=
  ∀ B b j, sys B = some b → (b.outgoing_connections j).Nodup

theorem nodup_erase_out_outgoing (rB : Moore) (sb A bit j : Nat)
    (hbase : (rB.outgoing_connections j).Nodup) :
    ((erase_out rB sb A bit).outgoing_connections j).Nodup := by
  rw [erase_out_outgoing, updFun_apply]
  by_cases hj : j = sb
  · subst hj
    rw [if_pos rfl]
    exact remove_from_nodup A bit hbase
  · rw [if_neg hj]
    exact hbase

theorem UniqOut_remove (sys : Sys) (hU : UniqOut sys) (A bit : Nat) :
    UniqOut (remove_the_connection sys A bit) := by
  rcases remove_the_connection_cases sys A bit with h | ⟨a, S, sb, src, hA, hb, hinc, hS⟩
  · rw [h]; exact hU
  · intro B b j hB
    have hchar := remove_the_connection_char sys A bit a hA hb S sb hinc src hS B
    rw [hB] at hchar
    cases hsB : sys B with
    | none => rw [hsB] at hchar; simp at hchar
    | some rB =>
      rw [hsB] at hchar
      simp only [Option.map_some'] at hchar
      have hb' := Option.some.inj hchar
      subst hb'
      have hbase : (rB.outgoing_connections j).Nodup := hU B rB j hsB
      show ((if B = A then clear_inc (if B = S then erase_out rB sb A bit else rB) bit
             else if B = S then erase_out rB sb A bit else rB).outgoing_connections j).Nodup
      by_cases hBA : B = A
      · rw [if_pos hBA, clear_inc_outgoing]
        by_cases hBS : B = S
        · rw [if_pos hBS]
          exact nodup_erase_out_outgoing rB sb A bit j hbase
        · rw [if_neg hBS]
          exact hbase
      · rw [if_neg hBA]
        by_cases hBS : B = S
        · rw [if_pos hBS]
          exact nodup_erase_out_outgoing rB sb A bit j hbase
        · rw [if_neg hBS]
          exact hbase

theorem UniqOut_updSys (sys : Sys) (hU : UniqOut sys) (K : Nat) (r : Moore)
    (h : ∀ j, (r.outgoing_connections j).Nodup) :
    UniqOut (updSys sys K r) := by
  intro B b j hB
  rw [updSys_apply] at hB
  by_cases hBK : B = K
  · rw [if_pos hBK] at hB
    cases Option.some.inj hB
    exact h j
  · rw [if_neg hBK] at hB
    exact hU B b j hB

theorem UniqOut_create_incoming (st : CSt) (hU : UniqOut st.sys)
    (getsId bit givesId srcBit : Nat) :
    UniqOut (create_incoming_connection st getsId bit givesId srcBit).sys := by
  unfold create_incoming_connection
  split
  case _ gets gives hg hv =>
    split
    · exact hU
    · cases hinc : (gets.incoming_connections bit).isSome
      · simp only [hinc, Bool.false_eq_true, if_false]
        split
        · split
          case _ g1 hg1 => exact UniqOut_updSys _ hU getsId _ (fun j => hU getsId g1 j hg1)
          case _ => exact hU
        · exact hU
      · simp only [hinc, if_true]
        have hU1 : UniqOut (updSys st.sys givesId (erase_out gives srcBit getsId bit)) :=
          UniqOut_updSys st.sys hU givesId _
            (fun j => nodup_erase_out_outgoing gives srcBit getsId bit j (hU givesId gives j hv))
        split
        · split
          case _ g1 hg1 => exact UniqOut_updSys _ hU1 getsId _ (fun j => hU1 getsId g1 j hg1)
          case _ => exact hU1
        · exact hU1
  case _ => exact hU

theorem not_mem_of_any_beq_false {l : List (Nat × Nat)} {g b : Nat}
    (h : l.any (fun c => c.1 == g && c.2 == b) = false) : (g, b) ∉ l := by
  intro hmem
  have h2 := List.any_eq_false.mp h _ hmem
  simp at h2

theorem UniqOut_create_outgoing (st : CSt) (hU : UniqOut st.sys)
    (givesId srcBit getsId bit : Nat) :
    UniqOut (create_outgoing_connection st givesId srcBit getsId bit).sys := by
  unfold create_outgoing_connection
  split
  case _ gives gets hv hg =>
    split
    · exact hU
    · cases hany : (gives.outgoing_connections srcBit).any (fun c => c.1 == getsId && c.2 == bit)
      · simp only [hany, Bool.false_eq_true, if_false]
        split
        · refine UniqOut_updSys st.sys hU givesId _ (fun j => ?_)
          show ((updFun gives.outgoing_connections srcBit
            ((getsId, bit) :: gives.outgoing_connections srcBit)) j).Nodup
          rw [updFun_apply]
          by_cases hj : j = srcBit
          · rw [if_pos hj]
            exact List.nodup_cons.mpr
              ⟨not_mem_of_any_beq_false hany, hU givesId gives srcBit hv⟩
          · rw [if_neg hj]
            exact hU givesId gives j hv
        · exact hU
      · simp only [hany, if_true]
        exact hU
  case _ => exact hU

theorem UniqOut_connect_bit (st : CSt) (hU : UniqOut st.sys)
    (aInId bitIn aOutId bitOut : Nat) :
    UniqOut (connect_bit st aInId bitIn aOutId bitOut).sys := by
  unfold connect_bit
  apply UniqOut_create_outgoing
  apply UniqOut_create_incoming
  split
  case _ a ha =>
    split
    · exact UniqOut_remove st.sys hU aInId bitIn
    · exact hU
  case _ => exact hU

theorem UniqOut_connect_loop (aInId inS aOutId outS : Nat) :
    ∀ (num i : Nat) (st : CSt), UniqOut st.sys →
      UniqOut (connect_loop aInId inS aOutId outS i num st).sys := by
  intro num
  induction num with
  | zero => intro i st h; exact h
  | succ n ih =>
    intro i st h
    exact ih (i + 1) _ (UniqOut_connect_bit st h _ _ _ _)

theorem UniqOut_ma_connect (st : CSt) (hU : UniqOut st.sys)
    (aInId inS aOutId outS num : Nat) :
    UniqOut (ma_connect st aInId inS aOutId outS num).1.sys := by
  unfold ma_connect
  split
  case _ aIn aOut hin hout =>
    split
    · exact hU
    · exact UniqOut_connect_loop aInId inS aOutId outS num 0 st hU
  case _ => exact hU

theorem UniqOut_disconnect_loop (aInId inS : Nat) :
    ∀ (num i : Nat) (sys : Sys), UniqOut sys →
      UniqOut (disconnect_loop aInId inS i num sys) := by
  intro num
  induction num with
  | zero => intro i sys h; exact h
  | succ n ih =>
    intro i sys h
    exact ih (i + 1) _ (UniqOut_remove sys h aInId _)

theorem UniqOut_ma_disconnect (sys : Sys) (hU : UniqOut sys) (aInId inS num : Nat) :
    UniqOut (ma_disconnect sys aInId inS num).1 := by
  unfold ma_disconnect
  split
  case _ a ha =>
    split
    · exact hU
    · exact UniqOut_disconnect_loop aInId inS num 0 sys hU
  case _ => exact hU

theorem UniqOut_clear_slot (sys : Sys) (hU : UniqOut sys) (d db : Nat) :
    UniqOut (clear_slot sys d db) := by
  unfold clear_slot
  split
  case _ => exact hU
  case _ dr hdr => exact UniqOut_updSys sys hU d _ (fun j => hU d dr j hdr)

theorem UniqOut_foldClear (L : List (Nat × Nat)) :
    ∀ (sys : Sys), UniqOut sys →
      UniqOut (L.foldl (fun s e => clear_slot s e.1 e.2) sys) := by
  induction L with
  | nil => intro sys h; exact h
  | cons e rest ih =>
    intro sys h
    rw [List.foldl_cons]
    exact ih _ (UniqOut_clear_slot sys h e.1 e.2)

theorem UniqOut_clear_out_bit (sys : Sys) (hU : UniqOut sys) (A j : Nat) :
    UniqOut (clear_out_bit sys A j) := by
  unfold clear_out_bit
  split
  case _ => exact hU
  case _ a ha =>
    have h1 := UniqOut_foldClear (a.outgoing_connections j) sys hU
    show UniqOut
      (match (a.outgoing_connections j).foldl (fun s e => clear_slot s e.1 e.2) sys A with
       | none => (a.outgoing_connections j).foldl (fun s e => clear_slot s e.1 e.2) sys
       | some a1 =>
         updSys ((a.outgoing_connections j).foldl (fun s e => clear_slot s e.1 e.2) sys) A
           { a1 with outgoing_connections := updFun a1.outgoing_connections j [] })
    cases hm : (a.outgoing_connections j).foldl (fun s e => clear_slot s e.1 e.2) sys A with
    | none => exact h1
    | some a1 =>
      refine UniqOut_updSys _ h1 A _ (fun j' => ?_)
      show ((updFun a1.outgoing_connections j []) j').Nodup
      rw [updFun_apply]
      by_cases hj : j' = j
      · rw [if_pos hj]
        exact List.nodup_nil
      · rw [if_neg hj]
        exact h1 A a1 j' hm

theorem UniqOut_fold_remove (A : Nat) :
    ∀ (l : List Nat) (sys : Sys), UniqOut sys →
      UniqOut (l.foldl (fun s i => remove_the_connection s A i) sys) := by
  intro l
  induction l with
  | nil => intro sys h; exact h
  | cons x rest ih =>
    intro sys h
    rw [List.foldl_cons]
    exact ih _ (UniqOut_remove sys h A x)

theorem UniqOut_fold_clear_out (A : Nat) :
    ∀ (l : List Nat) (sys : Sys), UniqOut sys →
      UniqOut (l.foldl (fun s j => clear_out_bit s A j) sys) := by
  intro l
  induction l with
  | nil => intro sys h; exact h
  | cons x rest ih =>
    intro sys h
    rw [List.foldl_cons]
    exact ih _ (UniqOut_clear_out_bit sys h A x)

theorem UniqOut_clear_the_connections (sys : Sys) (hU : UniqOut sys) (A : Nat) :
    UniqOut (clear_the_connections sys A) := by
  unfold clear_the_connections
  split
  case _ => exact hU
  case _ a ha =>
    exact UniqOut_fold_clear_out A _ _ (UniqOut_fold_remove A _ sys hU)

theorem UniqOut_ma_delete (sys : Sys) (hU : UniqOut sys) (A : Nat) :
    UniqOut (ma_delete sys A) := by
  unfold ma_delete
  split
  case _ => exact hU
  case _ a ha =>
    intro B b j hB
    by_cases hBA : B = A
    · rw [hBA] at hB
      simp at hB
    · simp only [if_neg hBA] at hB
      exact UniqOut_clear_the_connections sys hU A B b j hB

/-- Connection state for the uniqueness witness (an arbitrary oracle:
uniqueness does not depend on allocation outcomes). -/
def stW8 : CSt :=
  { sys := sysPlain2, oracle := [true], errno := none }

/-- C8: outgoing-list uniqueness.  If every live automaton's outgoing
lists are duplicate-free, they remain so after any `ma_connect` (under
any allocation-oracle outcome), any `ma_disconnect`, and any
`ma_delete`: `create_outgoing_connection` scans for an existing entry
before prepending, and the removal paths only delete entries, so
connect/disconnect/re-connect cycles never accumulate duplicates. -/
theorem outgoing_uniqueness (st : CSt) (hU : UniqOut st.sys)
    (aInId inS aOutId outS num aInId2 inS2 num2 D : Nat) :
    UniqOut (ma_connect st aInId inS aOutId outS num).1.sys ∧
      UniqOut (ma_disconnect st.sys aInId2 inS2 num2).1 ∧
      UniqOut (ma_delete st.sys D) :=
  ⟨UniqOut_ma_connect st hU aInId inS aOutId outS num,
    UniqOut_ma_disconnect st.sys hU aInId2 inS2 num2,
    UniqOut_ma_delete st.sys hU D⟩

/-- Witness for C8 on the concrete two-automaton state `stW8`. -/
theorem outgoing_uniqueness_witness :
    UniqOut stW8.sys ∧
      (UniqOut (ma_connect stW8 0 0 1 0 1).1.sys ∧
        UniqOut (ma_disconnect stW8.sys 0 0 1).1 ∧
        UniqOut (ma_delete stW8.sys 1)) := by
  have hU : UniqOut stW8.sys := by
    intro B b j hB
    show (b.outgoing_connections j).Nodup
    by_cases h0 : B = 0
    · rw [show stW8.sys B = some plainAut from by simp [stW8, sysPlain2, h0]] at hB
      cases Option.some.inj hB
      exact List.nodup_nil
    · by_cases h1 : B = 1
      · rw [show stW8.sys B = some plainAut from by simp [stW8, sysPlain2, h0, h1]] at hB
        cases Option.some.inj hB
        exact List.nodup_nil
      · rw [show stW8.sys B = none from by simp [stW8, sysPlain2, h0, h1]] at hB
        exact absurd hB (by simp)
  exact ⟨hU, outgoing_uniqueness stW8 hU 0 0 1 0 1 0 0 1 1⟩

theorem remove_fun_incoming (A bit S sb X : Nat) (r : Moore) (i : Nat) :
    (remove_fun A bit S sb X r).incoming_connections i =
      if X = A ∧ i = bit then none else r.incoming_connections i := by
  show ((if X = A then clear_inc (if X = S then erase_out r sb A bit else r) bit
         else if X = S then erase_out r sb A bit else r).incoming_connections i) = _
  by_cases hXA : X = A
  · by_cases hXS : X = S
    · rw [if_pos hXA, if_pos hXS]
      by_cases hi : i = bit <;>
        simp [clear_inc, erase_out, updFun_apply, hXA, hi]
    · rw [if_pos hXA, if_neg hXS]
      by_cases hi : i = bit <;>
        simp [clear_inc, updFun_apply, hXA, hi]
  · by_cases hXS : X = S
    · rw [if_neg hXA, if_pos hXS]
      simp [erase_out, hXA]
    · rw [if_neg hXA, if_neg hXS]
      simp [hXA]

theorem remove_fun_outgoing (A bit S sb X : Nat) (r : Moore) (j : Nat) :
    (remove_fun A bit S sb X r).outgoing_connections j =
      if X = S ∧ j = sb then
        remove_from_the_outgoing_list (r.outgoing_connections sb) A bit
      else r.outgoing_connections j := by
  show ((if X = A then clear_inc (if X = S then erase_out r sb A bit else r) bit
         else if X = S then erase_out r sb A bit else r).outgoing_connections j) = _
  by_cases hXA : X = A
  · by_cases hXS : X = S
    · rw [if_pos hXA, if_pos hXS]
      by_cases hj : j = sb <;>
        simp [clear_inc, erase_out, updFun_apply, hXS, hj]
    · rw [if_pos hXA, if_neg hXS]
      simp [clear_inc, hXS]
  · by_cases hXS : X = S
    · rw [if_neg hXA, if_pos hXS]
      by_cases hj : j = sb <;>
        simp [erase_out, updFun_apply, hXS, hj]
    · rw [if_neg hXA, if_neg hXS]
      simp [hXS]

theorem remove_fun_in_num (A bit S sb X : Nat) (r : Moore) :
    (remove_fun A bit S sb X r).input_signals_num = r.input_signals_num := by
  show (if X = A then clear_inc (if X = S then erase_out r sb A bit else r) bit
        else if X = S then erase_out r sb A bit else r).input_signals_num = _
  by_cases hXA : X = A
  · by_cases hXS : X = S
    · rw [if_pos hXA, if_pos hXS]
      rfl
    · rw [if_pos hXA, if_neg hXS]
      rfl
  · by_cases hXS : X = S
    · rw [if_neg hXA, if_pos hXS]
      rfl
    · rw [if_neg hXA, if_neg hXS]

theorem remove_fun_out_num (A bit S sb X : Nat) (r : Moore) :
    (remove_fun A bit S sb X r).output_signals_num = r.output_signals_num := by
  show (if X = A then clear_inc (if X = S then erase_out r sb A bit else r) bit
        else if X = S then erase_out r sb A bit else r).output_signals_num = _
  by_cases hXA : X = A
  · by_cases hXS : X = S
    · rw [if_pos hXA, if_pos hXS]
      rfl
    · rw [if_pos hXA, if_neg hXS]
      rfl
  · by_cases hXS : X = S
    · rw [if_neg hXA, if_pos hXS]
      rfl
    · rw [if_neg hXA, if_neg hXS]

/-- The connection-graph invariant of the specification: indices beyond
the declared widths are unused, every link endpoint is live and in
range, the incoming slots and outgoing lists mirror each other exactly,
and outgoing lists are duplicate-free. -/
structure LinkInv (sys : Sys) : Prop where
  inc_dom : ∀ A a i, sys A = some a → a.input_signals_num ≤ i →
    a.incoming_connections i = none
  out_dom : ∀ A a j, sys A = some a → a.output_signals_num ≤ j →
    a.outgoing_connections j = []
  inc_tgt : ∀ A a i B j, sys A = some a → a.incoming_connections i = some (B, j) →
    ∃ b, sys B = some b ∧ j < b.output_signals_num
  out_tgt : ∀ B b j A i, sys B = some b → (A, i) ∈ b.outgoing_connections j →
    ∃ a, sys A = some a ∧ i < a.input_signals_num
  sym : ∀ A a B b i j, sys A = some a → sys B = some b →
    (a.incoming_connections i = some (B, j) ↔ (A, i) ∈ b.outgoing_connections j)
  uniq : UniqOut sys

theorem pair_ne_of_not_and {Y j S sb : Nat} (h : ¬ (Y = S ∧ j = sb)) :
    ((Y, j) : Nat × Nat) ≠ (S, sb) := by
  intro he
  exact h ⟨congrArg Prod.fst he, congrArg Prod.snd he⟩

theorem LinkInv_remove (sys : Sys) (hI : LinkInv sys) (A bit : Nat) :
    LinkInv (remove_the_connection sys A bit) := by
  rcases remove_the_connection_cases sys A bit with h | ⟨a, S, sb, src, hA, hb, hinc, hS⟩
  · rw [h]
    exact hI
  · have hchar := remove_the_connection_char sys A bit a hA hb S sb hinc src hS
    have hlook : ∀ X r', remove_the_connection sys A bit X = some r' ↔
        ∃ r, sys X = some r ∧ r' = remove_fun A bit S sb X r := by
      intro X r'
      rw [hchar X]
      cases hx : sys X <;> simp [eq_comm]
    constructor
    · -- inc_dom
      intro X x i hX hle
      rcases (hlook X x).mp hX with ⟨r, hr, rfl⟩
      rw [remove_fun_incoming]
      by_cases hc : X = A ∧ i = bit
      · rw [if_pos hc]
      · rw [if_neg hc]
        exact hI.inc_dom X r i hr (by rw [remove_fun_in_num] at hle; exact hle)
    · -- out_dom
      intro X x j hX hle
      rcases (hlook X x).mp hX with ⟨r, hr, rfl⟩
      rw [remove_fun_outgoing]
      rw [remove_fun_out_num] at hle
      by_cases hc : X = S ∧ j = sb
      · rw [if_pos hc]
        rw [hI.out_dom X r sb hr (hc.2 ▸ hle)]
        rfl
      · rw [if_neg hc]
        exact hI.out_dom X r j hr hle
    · -- inc_tgt
      intro X x i B j hX hxi
      rcases (hlook X x).mp hX with ⟨r, hr, rfl⟩
      rw [remove_fun_incoming] at hxi
      by_cases hc : X = A ∧ i = bit
      · rw [if_pos hc] at hxi
        exact absurd hxi (by simp)
      · rw [if_neg hc] at hxi
        rcases hI.inc_tgt X r i B j hr hxi with ⟨b, hb', hlt⟩
        refine ⟨remove_fun A bit S sb B b, (hlook B _).mpr ⟨b, hb', rfl⟩, ?_⟩
        rw [remove_fun_out_num]
        exact hlt
    · -- out_tgt
      intro Y y j X i hY hmem
      rcases (hlook Y y).mp hY with ⟨r, hr, rfl⟩
      rw [remove_fun_outgoing] at hmem
      have hmem' : (X, i) ∈ r.outgoing_connections j := by
        by_cases hc : Y = S ∧ j = sb
        · rw [if_pos hc] at hmem
          exact hc.2 ▸ mem_of_mem_remove_from hmem
        · rw [if_neg hc] at hmem
          exact hmem
      rcases hI.out_tgt Y r j X i hr hmem' with ⟨x, hx, hlt⟩
      refine ⟨remove_fun A bit S sb X x, (hlook X _).mpr ⟨x, hx, rfl⟩, ?_⟩
      rw [remove_fun_in_num]
      exact hlt
    · -- sym
      intro X x Y y i j hX hY
      rcases (hlook X x).mp hX with ⟨rX, hrX, rfl⟩
      rcases (hlook Y y).mp hY with ⟨rY, hrY, rfl⟩
      rw [remove_fun_incoming, remove_fun_outgoing]
      by_cases hXc : X = A ∧ i = bit
      · rw [if_pos hXc]
        obtain ⟨hX1, hi1⟩ := hXc
        constructor
        · intro hfalse
          exact absurd hfalse (by simp)
        · intro hmem
          exfalso
          by_cases hYc : Y = S ∧ j = sb
          · rw [if_pos hYc] at hmem
            have hrYS : rY = src := by
              rw [hYc.1] at hrY
              rw [hrY] at hS
              exact Option.some.inj hS
            subst hrYS
            rw [hX1, hi1] at hmem
            exact not_mem_remove_from_self (hI.uniq S rY sb (hYc.1 ▸ hrY)) hmem
          · rw [if_neg hYc] at hmem
            have hiff := hI.sym X rX Y rY i j hrX hrY
            have h2 : rX.incoming_connections i = some (Y, j) := hiff.mpr hmem
            have ha' : rX = a := by
              rw [hX1] at hrX
              rw [hrX] at hA
              exact Option.some.inj hA
            rw [ha', hi1, hinc] at h2
            have h3 := Option.some.inj h2
            exact hYc ⟨(congrArg Prod.fst h3).symm, (congrArg Prod.snd h3).symm⟩
      · rw [if_neg hXc]
        by_cases hYc : Y = S ∧ j = sb
        · rw [if_pos hYc]
          have hrYS : rY = src := by
            rw [hYc.1] at hrY
            rw [hrY] at hS
            exact Option.some.inj hS
          subst hrYS
          rw [mem_remove_from_of_ne (pair_ne_of_not_and hXc)]
          obtain ⟨hY1, hj1⟩ := hYc
          subst hY1
          subst hj1
          exact hI.sym X rX Y rY i j hrX hrY
        · rw [if_neg hYc]
          exact hI.sym X rX Y rY i j hrX hrY
    · -- uniq
      exact UniqOut_remove sys hI.uniq A bit

/-- Record transformer: install `(B, j)` in incoming slot `bit`. -/
def add_inc (r : Moore) (bit B j : Nat) : Moore :=
  { r with incoming_connections := updFun r.incoming_connections bit (some (B, j)) }

/-- Record transformer: prepend `(A, i)` to the outgoing list of output
bit `j`. -/
def add_out (r : Moore) (j A i : Nat) : Moore :=
  { r with
    outgoing_connections :=
      updFun r.outgoing_connections j ((A, i) :: r.outgoing_connections j) }

theorem create_incoming_success (st : CSt) (A bitIn B bitOut : Nat) (a0 b0 : Moore)
    (hA : st.sys A = some a0) (hB : st.sys B = some b0)
    (hbi : bitIn < a0.input_signals_num) (hbo : bitOut < b0.output_signals_num)
    (hnone : a0.incoming_connections bitIn = none) (horacle : st.oracle = []) :
    create_incoming_connection st A bitIn B bitOut =
      { st with sys := updSys st.sys A (add_inc a0 bitIn B bitOut), oracle := [] } := by
  have hguard : ¬ (bitIn ≥ a0.input_signals_num ∨ bitOut ≥ b0.output_signals_num) := by
    push_neg
    exact ⟨hbi, hbo⟩
  simp only [create_incoming_connection, hA, hB, if_neg hguard, hnone, Option.isSome_none,
    Bool.false_eq_true, if_false, horacle, popAlloc, if_true, add_inc]

theorem any_beq_false_of_not_mem {l : List (Nat × Nat)} {g b : Nat}
    (h : (g, b) ∉ l) : l.any (fun c => c.1 == g && c.2 == b) = false := by
  rw [List.any_eq_false]
  intro x hx hbeq
  simp only [Bool.and_eq_true, beq_iff_eq] at hbeq
  exact h (by
    have : x = (g, b) := Prod.ext_iff.mpr hbeq
    exact this ▸ hx)

theorem create_outgoing_success (st : CSt) (B bitOut A bitIn : Nat) (b0 a0 : Moore)
    (hB : st.sys B = some b0) (hA : st.sys A = some a0)
    (hbo : bitOut < b0.output_signals_num) (hbi : bitIn < a0.input_signals_num)
    (hnotmem : (A, bitIn) ∉ b0.outgoing_connections bitOut) (horacle : st.oracle = []) :
    create_outgoing_connection st B bitOut A bitIn =
      { st with sys := updSys st.sys B (add_out b0 bitOut A bitIn), oracle := [] } := by
  have hguard : ¬ (bitOut ≥ b0.output_signals_num ∨ bitIn ≥ a0.input_signals_num) := by
    push_neg
    exact ⟨hbo, hbi⟩
  simp only [create_outgoing_connection, hB, hA, if_neg hguard,
    any_beq_false_of_not_mem hnotmem, Bool.false_eq_true, if_false, horacle, popAlloc,
    if_true, add_out]

theorem create_incoming_guard_noop (st : CSt) (getsId bit givesId srcBit : Nat)
    (h : ∀ gets gives, st.sys getsId = some gets → st.sys givesId = some gives →
        bit ≥ gets.input_signals_num ∨ srcBit ≥ gives.output_signals_num) :
    (create_incoming_connection st getsId bit givesId srcBit).sys = st.sys ∧
      (create_incoming_connection st getsId bit givesId srcBit).oracle = st.oracle := by
  unfold create_incoming_connection
  split
  case _ gets gives hg hv =>
    rw [if_pos (h gets gives hg hv)]
    exact ⟨rfl, rfl⟩
  case _ => exact ⟨rfl, rfl⟩

theorem create_outgoing_guard_noop (st : CSt) (givesId srcBit getsId bit : Nat)
    (h : ∀ gives gets, st.sys givesId = some gives → st.sys getsId = some gets →
        srcBit ≥ gives.output_signals_num ∨ bit ≥ gets.input_signals_num) :
    (create_outgoing_connection st givesId srcBit getsId bit).sys = st.sys ∧
      (create_outgoing_connection st givesId srcBit getsId bit).oracle = st.oracle := by
  unfold create_outgoing_connection
  split
  case _ gives gets hv hg =>
    rw [if_pos (h gives gets hv hg)]
    exact ⟨rfl, rfl⟩
  case _ => exact ⟨rfl, rfl⟩

/-- Per-automaton effect of a successful
`create_incoming_connection` / `create_outgoing_connection` pair. -/
def connect_fun (A bitIn B bitOut X : Nat) (r : Moore) : Moore :=
  let r1 := if X = A then add_inc r bitIn B bitOut else r
  if X = B then add_out r1 bitOut A bitIn else r1

theorem connect_fun_incoming (A bitIn B bitOut X : Nat) (r : Moore) (i : Nat) :
    (connect_fun A bitIn B bitOut X r).incoming_connections i =
      if X = A ∧ i = bitIn then some (B, bitOut) else r.incoming_connections i := by
  show ((if X = B then add_out (if X = A then add_inc r bitIn B bitOut else r) bitOut A bitIn
         else if X = A then add_inc r bitIn B bitOut else r).incoming_connections i) = _
  by_cases hXB : X = B
  · by_cases hXA : X = A
    · rw [if_pos hXB, if_pos hXA]
      by_cases hi : i = bitIn <;> simp [add_out, add_inc, updFun_apply, hXA, hi]
    · rw [if_pos hXB, if_neg hXA]
      simp [add_out, hXA]
  · by_cases hXA : X = A
    · rw [if_neg hXB, if_pos hXA]
      by_cases hi : i = bitIn <;> simp [add_inc, updFun_apply, hXA, hi]
    · rw [if_neg hXB, if_neg hXA]
      simp [hXA]

theorem connect_fun_outgoing (A bitIn B bitOut X : Nat) (r : Moore) (j : Nat) :
    (connect_fun A bitIn B bitOut X r).outgoing_connections j =
      if X = B ∧ j = bitOut then (A, bitIn) :: r.outgoing_connections bitOut
      else r.outgoing_connections j := by
  show ((if X = B then add_out (if X = A then add_inc r bitIn B bitOut else r) bitOut A bitIn
         else if X = A then add_inc r bitIn B bitOut else r).outgoing_connections j) = _
  by_cases hXB : X = B
  · by_cases hXA : X = A
    · rw [if_pos hXB, if_pos hXA]
      by_cases hj : j = bitOut <;> simp [add_out, add_inc, updFun_apply, hXB, hj]
    · rw [if_pos hXB, if_neg hXA]
      by_cases hj : j = bitOut <;> simp [add_out, updFun_apply, hXB, hj]
  · by_cases hXA : X = A
    · rw [if_neg hXB, if_pos hXA]
      simp [add_inc, hXB]
    · rw [if_neg hXB, if_neg hXA]
      simp [hXB]

theorem connect_fun_in_num (A bitIn B bitOut X : Nat) (r : Moore) :
    (connect_fun A bitIn B bitOut X r).input_signals_num = r.input_signals_num := by
  show (if X = B then add_out (if X = A then add_inc r bitIn B bitOut else r) bitOut A bitIn
        else if X = A then add_inc r bitIn B bitOut else r).input_signals_num = _
  by_cases hXB : X = B
  · by_cases hXA : X = A
    · rw [if_pos hXB, if_pos hXA]
      rfl
    · rw [if_pos hXB, if_neg hXA]
      rfl
  · by_cases hXA : X = A
    · rw [if_neg hXB, if_pos hXA]
      rfl
    · rw [if_neg hXB, if_neg hXA]

theorem connect_fun_out_num (A bitIn B bitOut X : Nat) (r : Moore) :
    (connect_fun A bitIn B bitOut X r).output_signals_num = r.output_signals_num := by
  show (if X = B then add_out (if X = A then add_inc r bitIn B bitOut else r) bitOut A bitIn
        else if X = A then add_inc r bitIn B bitOut else r).output_signals_num = _
  by_cases hXB : X = B
  · by_cases hXA : X = A
    · rw [if_pos hXB, if_pos hXA]
      rfl
    · rw [if_pos hXB, if_neg hXA]
      rfl
  · by_cases hXA : X = A
    · rw [if_neg hXB, if_pos hXA]
      rfl
    · rw [if_neg hXB, if_neg hXA]

theorem connect_pair_char (st : CSt) (hI : LinkInv st.sys) (horacle : st.oracle = [])
    (A bitIn B bitOut : Nat) (a0 b0 : Moore)
    (hA : st.sys A = some a0) (hB : st.sys B = some b0)
    (hbi : bitIn < a0.input_signals_num) (hbo : bitOut < b0.output_signals_num)
    (hnone : a0.incoming_connections bitIn = none) :
    (∀ X, (create_outgoing_connection (create_incoming_connection st A bitIn B bitOut)
        B bitOut A bitIn).sys X = Option.map (connect_fun A bitIn B bitOut X) (st.sys X)) ∧
      (create_outgoing_connection (create_incoming_connection st A bitIn B bitOut)
        B bitOut A bitIn).oracle = [] := by
  have hnotmem : (A, bitIn) ∉ b0.outgoing_connections bitOut := by
    intro hmem
    have h2 := (hI.sym A a0 B b0 bitIn bitOut hA hB).mpr hmem
    rw [hnone] at h2
    exact absurd h2 (by simp)
  rw [create_incoming_success st A bitIn B bitOut a0 b0 hA hB hbi hbo hnone horacle]
  by_cases hAB : A = B
  · subst hAB
    have hab : a0 = b0 := by
      rw [hA] at hB
      exact Option.some.inj hB
    subst hab
    have hA2 : (updSys st.sys A (add_inc a0 bitIn A bitOut)) A =
        some (add_inc a0 bitIn A bitOut) := by
      rw [updSys_apply, if_pos rfl]
    rw [create_outgoing_success _ A bitOut A bitIn (add_inc a0 bitIn A bitOut)
      (add_inc a0 bitIn A bitOut) hA2 hA2
      (show bitOut < (add_inc a0 bitIn A bitOut).output_signals_num from hbo)
      (show bitIn < (add_inc a0 bitIn A bitOut).input_signals_num from hbi)
      (show (A, bitIn) ∉ (add_inc a0 bitIn A bitOut).outgoing_connections bitOut from hnotmem)
      rfl]
    refine ⟨fun X => ?_, rfl⟩
    show updSys (updSys st.sys A (add_inc a0 bitIn A bitOut)) A
        (add_out (add_inc a0 bitIn A bitOut) bitOut A bitIn) X = _
    by_cases hX : X = A
    · subst hX
      rw [updSys_apply, if_pos rfl, hA]
      simp [connect_fun]
    · rw [updSys_apply, if_neg hX, updSys_apply, if_neg hX]
      cases hsx : st.sys X <;> simp [connect_fun, hsx, hX]
  · have hBA : ¬ B = A := fun h => hAB h.symm
    have hB2 : (updSys st.sys A (add_inc a0 bitIn B bitOut)) B = some b0 := by
      rw [updSys_apply, if_neg hBA]
      exact hB
    have hA2 : (updSys st.sys A (add_inc a0 bitIn B bitOut)) A =
        some (add_inc a0 bitIn B bitOut) := by
      rw [updSys_apply, if_pos rfl]
    rw [create_outgoing_success _ B bitOut A bitIn b0 (add_inc a0 bitIn B bitOut) hB2 hA2
      hbo (show bitIn < (add_inc a0 bitIn B bitOut).input_signals_num from hbi) hnotmem rfl]
    refine ⟨fun X => ?_, rfl⟩
    show updSys (updSys st.sys A (add_inc a0 bitIn B bitOut)) B (add_out b0 bitOut A bitIn) X = _
    by_cases hX : X = B
    · subst hX
      rw [updSys_apply, if_pos rfl, hB]
      simp [connect_fun, hBA]
    · by_cases hXA : X = A
      · subst hXA
        rw [updSys_apply, if_neg hX, updSys_apply, if_pos rfl, hA]
        simp [connect_fun, hAB]
      · rw [updSys_apply, if_neg hX, updSys_apply, if_neg hXA]
        cases hsx : st.sys X <;> simp [connect_fun, hsx, hX, hXA]

theorem LinkInv_connect_pair (st : CSt) (hI : LinkInv st.sys) (horacle : st.oracle = [])
    (A bitIn B bitOut : Nat) (a0 b0 : Moore)
    (hA : st.sys A = some a0) (hB : st.sys B = some b0)
    (hbi : bitIn < a0.input_signals_num) (hbo : bitOut < b0.output_signals_num)
    (hnone : a0.incoming_connections bitIn = none) :
    LinkInv (create_outgoing_connection (create_incoming_connection st A bitIn B bitOut)
      B bitOut A bitIn).sys ∧
      (create_outgoing_connection (create_incoming_connection st A bitIn B bitOut)
        B bitOut A bitIn).oracle = [] := by
  obtain ⟨hchar, horacle2⟩ :=
    connect_pair_char st hI horacle A bitIn B bitOut a0 b0 hA hB hbi hbo hnone
  refine ⟨?_, horacle2⟩
  have hlook : ∀ X r',
      (create_outgoing_connection (create_incoming_connection st A bitIn B bitOut)
        B bitOut A bitIn).sys X = some r' ↔
        ∃ r, st.sys X = some r ∧ r' = connect_fun A bitIn B bitOut X r := by
    intro X r'
    rw [hchar X]
    cases hx : st.sys X <;> simp [eq_comm]
  constructor
  · intro X x i hX hle
    rcases (hlook X x).mp hX with ⟨r, hr, rfl⟩
    rw [connect_fun_in_num] at hle
    rw [connect_fun_incoming]
    by_cases hc : X = A ∧ i = bitIn
    · exfalso
      have hra : r = a0 := by
        rw [hc.1] at hr
        rw [hr] at hA
        exact Option.some.inj hA
      rw [hra] at hle
      omega
    · rw [if_neg hc]
      exact hI.inc_dom X r i hr hle
  · intro X x j hX hle
    rcases (hlook X x).mp hX with ⟨r, hr, rfl⟩
    rw [connect_fun_out_num] at hle
    rw [connect_fun_outgoing]
    by_cases hc : X = B ∧ j = bitOut
    · exfalso
      have hrb : r = b0 := by
        rw [hc.1] at hr
        rw [hr] at hB
        exact Option.some.inj hB
      rw [hrb] at hle
      omega
    · rw [if_neg hc]
      exact hI.out_dom X r j hr hle
  · intro X x i Y j hX hxi
    rcases (hlook X x).mp hX with ⟨r, hr, rfl⟩
    rw [connect_fun_incoming] at hxi
    by_cases hc : X = A ∧ i = bitIn
    · rw [if_pos hc] at hxi
      have h2 := Option.some.inj hxi
      have hYB : Y = B := (show B = Y from congrArg Prod.fst h2).symm
      have hjO : j = bitOut := (show bitOut = j from congrArg Prod.snd h2).symm
      refine ⟨connect_fun A bitIn B bitOut Y b0, (hlook Y _).mpr ⟨b0, hYB ▸ hB, rfl⟩, ?_⟩
      rw [connect_fun_out_num, hjO]
      exact hbo
    · rw [if_neg hc] at hxi
      rcases hI.inc_tgt X r i Y j hr hxi with ⟨b1, hb1, hlt⟩
      refine ⟨connect_fun A bitIn B bitOut Y b1, (hlook Y _).mpr ⟨b1, hb1, rfl⟩, ?_⟩
      rw [connect_fun_out_num]
      exact hlt
  · intro Y y j X i hY hmem
    rcases (hlook Y y).mp hY with ⟨r, hr, rfl⟩
    rw [connect_fun_outgoing] at hmem
    by_cases hc : Y = B ∧ j = bitOut
    · rw [if_pos hc] at hmem
      rcases List.mem_cons.mp hmem with h' | h'
      · have hXA : X = A := congrArg Prod.fst h'
        have hib : i = bitIn := congrArg Prod.snd h'
        refine ⟨connect_fun A bitIn B bitOut X a0, (hlook X _).mpr ⟨a0, hXA ▸ hA, rfl⟩, ?_⟩
        rw [connect_fun_in_num, hib]
        exact hbi
      · rcases hI.out_tgt Y r bitOut X i hr h' with ⟨a1, ha1, hlt⟩
        refine ⟨connect_fun A bitIn B bitOut X a1, (hlook X _).mpr ⟨a1, ha1, rfl⟩, ?_⟩
        rw [connect_fun_in_num]
        exact hlt
    · rw [if_neg hc] at hmem
      rcases hI.out_tgt Y r j X i hr hmem with ⟨a1, ha1, hlt⟩
      refine ⟨connect_fun A bitIn B bitOut X a1, (hlook X _).mpr ⟨a1, ha1, rfl⟩, ?_⟩
      rw [connect_fun_in_num]
      exact hlt
  · intro X x Y y i j hX hY
    rcases (hlook X x).mp hX with ⟨rX, hrX, rfl⟩
    rcases (hlook Y y).mp hY with ⟨rY, hrY, rfl⟩
    rw [connect_fun_incoming, connect_fun_outgoing]
    by_cases hXc : X = A ∧ i = bitIn
    · rw [if_pos hXc]
      have hrXa : rX = a0 := by
        rw [hXc.1] at hrX
        rw [hrX] at hA
        exact Option.some.inj hA
      by_cases hYc : Y = B ∧ j = bitOut
      · rw [if_pos hYc]
        constructor
        · intro _
          exact List.mem_cons.mpr (Or.inl (by rw [hXc.1, hXc.2]))
        · intro _
          rw [hYc.1, hYc.2]
      · rw [if_neg hYc]
        constructor
        · intro h
          exfalso
          have h2 := Option.some.inj h
          exact hYc ⟨(show B = Y from congrArg Prod.fst h2).symm,
            (show bitOut = j from congrArg Prod.snd h2).symm⟩
        · intro hmem
          exfalso
          have h2 := (hI.sym X rX Y rY i j hrX hrY).mpr hmem
          rw [hrXa, hXc.2, hnone] at h2
          exact absurd h2 (by simp)
    · rw [if_neg hXc]
      by_cases hYc : Y = B ∧ j = bitOut
      · rw [if_pos hYc]
        have hrYb : rY = b0 := by
          rw [hYc.1] at hrY
          rw [hrY] at hB
          exact Option.some.inj hB
        rw [List.mem_cons]
        constructor
        · intro h
          right
          rw [hYc.1, hYc.2] at h
          rw [hrYb]
          exact (hI.sym X rX B b0 i bitOut hrX hB).mp h
        · intro h
          rcases h with h' | h'
          · exact absurd ⟨congrArg Prod.fst h', congrArg Prod.snd h'⟩ hXc
          · rw [hYc.1, hYc.2]
            rw [hrYb] at h'
            exact (hI.sym X rX B b0 i bitOut hrX hB).mpr h'
      · rw [if_neg hYc]
        exact hI.sym X rX Y rY i j hrX hrY
  · exact UniqOut_create_outgoing _
      (UniqOut_create_incoming st hI.uniq A bitIn B bitOut) B bitOut A bitIn

theorem remove_none (sys : Sys) (A bit X : Nat) (h : sys X = none) :
    remove_the_connection sys A bit X = none := by
  rcases remove_the_connection_cases sys A bit with hc | ⟨a, S, sb, src, hA, hb, hinc, hS⟩
  · rw [hc]
    exact h
  · rw [remove_the_connection_char sys A bit a hA hb S sb hinc src hS X, h]
    rfl

theorem remove_presence (sys : Sys) (A bit X : Nat) (r : Moore) (h : sys X = some r) :
    ∃ r', remove_the_connection sys A bit X = some r' ∧
      r'.input_signals_num = r.input_signals_num ∧
      r'.output_signals_num = r.output_signals_num := by
  rcases remove_the_connection_cases sys A bit with hc | ⟨a, S, sb, src, hA, hb, hinc, hS⟩
  · rw [hc]
    exact ⟨r, h, rfl, rfl⟩
  · rw [remove_the_connection_char sys A bit a hA hb S sb hinc src hS X, h]
    exact ⟨remove_fun A bit S sb X r, rfl, remove_fun_in_num A bit S sb X r,
      remove_fun_out_num A bit S sb X r⟩

theorem remove_clears_slot (sys : Sys) (hI : LinkInv sys) (A bit : Nat) (a : Moore)
    (hA : sys A = some a) (hbit : bit < a.input_signals_num) :
    ∃ a1, remove_the_connection sys A bit A = some a1 ∧
      a1.incoming_connections bit = none ∧
      a1.input_signals_num = a.input_signals_num := by
  cases hinc : a.incoming_connections bit with
  | none =>
    have he : remove_the_connection sys A bit = sys := by
      simp only [remove_the_connection, hA, if_neg (not_le.mpr hbit), hinc]
    rw [he]
    exact ⟨a, hA, hinc, rfl⟩
  | some p =>
    obtain ⟨S, sb⟩ := p
    rcases hI.inc_tgt A a bit S sb hA hinc with ⟨src, hS, _⟩
    rw [remove_the_connection_char sys A bit a hA (not_le.mpr hbit) S sb hinc src hS A, hA]
    refine ⟨remove_fun A bit S sb A a, rfl, ?_, remove_fun_in_num A bit S sb A a⟩
    rw [remove_fun_incoming]
    simp

theorem creates_noop (st1 : CSt) (aInId bitIn aOutId bitOut : Nat)
    (h : ∀ gets gives, st1.sys aInId = some gets → st1.sys aOutId = some gives →
        bitIn ≥ gets.input_signals_num ∨ bitOut ≥ gives.output_signals_num) :
    (create_outgoing_connection (create_incoming_connection st1 aInId bitIn aOutId bitOut)
      aOutId bitOut aInId bitIn).sys = st1.sys ∧
      (create_outgoing_connection (create_incoming_connection st1 aInId bitIn aOutId bitOut)
        aOutId bitOut aInId bitIn).oracle = st1.oracle := by
  obtain ⟨e1, e2⟩ := create_incoming_guard_noop st1 aInId bitIn aOutId bitOut h
  obtain ⟨e3, e4⟩ := create_outgoing_guard_noop
    (create_incoming_connection st1 aInId bitIn aOutId bitOut) aOutId bitOut aInId bitIn
    (fun gives gets hv hg =>
      Or.symm (h gets gives (by rw [e1] at hg; exact hg) (by rw [e1] at hv; exact hv)))
  exact ⟨by rw [e3, e1], by rw [e4, e2]⟩

theorem LinkInv_creates (st1 : CSt) (hI1 : LinkInv st1.sys) (ho1 : st1.oracle = [])
    (aInId bitIn aOutId bitOut : Nat)
    (hready : ∀ a1, st1.sys aInId = some a1 → bitIn < a1.input_signals_num →
        a1.incoming_connections bitIn = none) :
    LinkInv (create_outgoing_connection (create_incoming_connection st1 aInId bitIn aOutId bitOut)
      aOutId bitOut aInId bitIn).sys ∧
      (create_outgoing_connection (create_incoming_connection st1 aInId bitIn aOutId bitOut)
        aOutId bitOut aInId bitIn).oracle = [] := by
  cases hA1 : st1.sys aInId with
  | none =>
    obtain ⟨e1, e2⟩ := creates_noop st1 aInId bitIn aOutId bitOut
      (fun gets gives hg hv => absurd hg (by rw [hA1]; simp))
    rw [e1, e2]
    exact ⟨hI1, ho1⟩
  | some a1 =>
    by_cases hbi : bitIn < a1.input_signals_num
    · cases hB1 : st1.sys aOutId with
      | none =>
        obtain ⟨e1, e2⟩ := creates_noop st1 aInId bitIn aOutId bitOut
          (fun gets gives hg hv => absurd hv (by rw [hB1]; simp))
        rw [e1, e2]
        exact ⟨hI1, ho1⟩
      | some b1 =>
        by_cases hbo : bitOut < b1.output_signals_num
        · exact LinkInv_connect_pair st1 hI1 ho1 aInId bitIn aOutId bitOut a1 b1 hA1 hB1
            hbi hbo (hready a1 hA1 hbi)
        · obtain ⟨e1, e2⟩ := creates_noop st1 aInId bitIn aOutId bitOut
            (fun gets gives hg hv => Or.inr (by
              rw [hB1] at hv
              cases Option.some.inj hv
              omega))
          rw [e1, e2]
          exact ⟨hI1, ho1⟩
    · obtain ⟨e1, e2⟩ := creates_noop st1 aInId bitIn aOutId bitOut
        (fun gets gives hg hv => Or.inl (by
          rw [hA1] at hg
          cases Option.some.inj hg
          omega))
      rw [e1, e2]
      exact ⟨hI1, ho1⟩

theorem LinkInv_connect_bit (st : CSt) (hI : LinkInv st.sys) (horacle : st.oracle = [])
    (aInId bitIn aOutId bitOut : Nat) :
    LinkInv (connect_bit st aInId bitIn aOutId bitOut).sys ∧
      (connect_bit st aInId bitIn aOutId bitOut).oracle = [] := by
  cases hA : st.sys aInId with
  | none =>
    have e : connect_bit st aInId bitIn aOutId bitOut =
        create_outgoing_connection (create_incoming_connection st aInId bitIn aOutId bitOut)
          aOutId bitOut aInId bitIn := by
      simp only [connect_bit, hA]
    rw [e]
    exact LinkInv_creates st hI horacle aInId bitIn aOutId bitOut
      (fun a1 h1 _ => absurd h1 (by rw [hA]; simp))
  | some a =>
    cases hs : (a.incoming_connections bitIn).isSome with
    | false =>
      have e : connect_bit st aInId bitIn aOutId bitOut =
          create_outgoing_connection (create_incoming_connection st aInId bitIn aOutId bitOut)
            aOutId bitOut aInId bitIn := by
        simp only [connect_bit, hA, hs, Bool.false_eq_true, if_false]
      rw [e]
      refine LinkInv_creates st hI horacle aInId bitIn aOutId bitOut ?_
      intro a1 h1 _
      rw [hA] at h1
      cases Option.some.inj h1
      exact Option.not_isSome_iff_eq_none.mp (by rw [hs]; exact Bool.false_ne_true)
    | true =>
      have e : connect_bit st aInId bitIn aOutId bitOut =
          create_outgoing_connection
            (create_incoming_connection
              { st with sys := remove_the_connection st.sys aInId bitIn }
              aInId bitIn aOutId bitOut) aOutId bitOut aInId bitIn := by
        simp only [connect_bit, hA, hs, if_true]
      rw [e]
      refine LinkInv_creates { st with sys := remove_the_connection st.sys aInId bitIn }
        (LinkInv_remove st.sys hI aInId bitIn) horacle aInId bitIn aOutId bitOut ?_
      intro a1 h1 hbi1
      have h1' : remove_the_connection st.sys aInId bitIn aInId = some a1 := h1
      rcases remove_presence st.sys aInId bitIn aInId a hA with ⟨r', hr', hn', _⟩
      have ha1 : a1 = r' := by
        rw [h1'] at hr'
        exact Option.some.inj hr'
      have hbi : bitIn < a.input_signals_num := by
        rw [ha1, hn'] at hbi1
        exact hbi1
      rcases remove_clears_slot st.sys hI aInId bitIn a hA hbi with ⟨a2, h2, hnone2, _⟩
      have ha2 : a1 = a2 := by
        rw [h1'] at h2
        exact Option.some.inj h2
      rw [ha2]
      exact hnone2

theorem LinkInv_connect_loop (aInId inS aOutId outS : Nat) :
    ∀ (num i : Nat) (st : CSt), LinkInv st.sys → st.oracle = [] →
      LinkInv (connect_loop aInId inS aOutId outS i num st).sys ∧
        (connect_loop aInId inS aOutId outS i num st).oracle = [] := by
  intro num
  induction num with
  | zero => intro i st h ho; exact ⟨h, ho⟩
  | succ n ih =>
    intro i st h ho
    obtain ⟨h1, ho1⟩ := LinkInv_connect_bit st h ho aInId ((inS + i) % UINT64_MOD)
      aOutId ((outS + i) % UINT64_MOD)
    exact ih (i + 1) _ h1 ho1

theorem LinkInv_ma_connect (st : CSt) (hI : LinkInv st.sys) (ho : st.oracle = [])
    (aInId inS aOutId outS num : Nat) :
    LinkInv (ma_connect st aInId inS aOutId outS num).1.sys := by
  unfold ma_connect
  split
  case _ aIn aOut hin hout =>
    split
    · exact hI
    · exact (LinkInv_connect_loop aInId inS aOutId outS num 0 st hI ho).1
  case _ => exact hI

theorem LinkInv_disconnect_loop (aInId inS : Nat) :
    ∀ (num i : Nat) (sys : Sys), LinkInv sys →
      LinkInv (disconnect_loop aInId inS i num sys) := by
  intro num
  induction num with
  | zero => intro i sys h; exact h
  | succ n ih =>
    intro i sys h
    exact ih (i + 1) _ (LinkInv_remove sys h aInId _)

theorem LinkInv_ma_disconnect (sys : Sys) (hI : LinkInv sys) (aInId inS num : Nat) :
    LinkInv (ma_disconnect sys aInId inS num).1 := by
  unfold ma_disconnect
  split
  case _ a ha =>
    split
    · exact hI
    · exact LinkInv_disconnect_loop aInId inS num 0 sys hI
  case _ => exact hI

theorem clear_slot_spec (sys : Sys) (d db X : Nat) :
    ((clear_slot sys d db) X).isSome = (sys X).isSome ∧
      ∀ r', clear_slot sys d db X = some r' → ∃ r, sys X = some r ∧
        r'.input_signals_num = r.input_signals_num ∧
        r'.output_signals_num = r.output_signals_num ∧
        r'.outgoing_connections = r.outgoing_connections ∧
        ∀ i, r'.incoming_connections i =
          if X = d ∧ i = db then none else r.incoming_connections i := by
  cases hd : sys d with
  | none =>
    have he : clear_slot sys d db = sys := by
      simp only [clear_slot, hd]
    rw [he]
    refine ⟨rfl, fun r' hr' => ⟨r', hr', rfl, rfl, rfl, fun i => ?_⟩⟩
    by_cases hc : X = d ∧ i = db
    · exfalso
      rw [hc.1] at hr'
      rw [hd] at hr'
      exact absurd hr' (by simp)
    · rw [if_neg hc]
  | some dr =>
    have he : clear_slot sys d db =
        updSys sys d { dr with incoming_connections := updFun dr.incoming_connections db none } := by
      simp only [clear_slot, hd]
    rw [he]
    by_cases hX : X = d
    · subst hX
      constructor
      · rw [updSys_apply, if_pos rfl, hd]
        rfl
      · intro r' hr'
        rw [updSys_apply, if_pos rfl] at hr'
        refine ⟨dr, hd, ?_, ?_, ?_, ?_⟩
        · rw [← Option.some.inj hr']
        · rw [← Option.some.inj hr']
        · rw [← Option.some.inj hr']
        · intro i
          rw [← Option.some.inj hr']
          show updFun dr.incoming_connections db none i = _
          rw [updFun_apply]
          by_cases hi : i = db
          · rw [if_pos hi, if_pos ⟨rfl, hi⟩]
          · rw [if_neg hi, if_neg (fun hc => hi hc.2)]
    · constructor
      · rw [updSys_apply, if_neg hX]
      · intro r' hr'
        rw [updSys_apply, if_neg hX] at hr'
        exact ⟨r', hr', rfl, rfl, rfl, fun i => by rw [if_neg (fun hc => hX hc.1)]⟩

theorem foldClear_spec (L : List (Nat × Nat)) :
    ∀ (sys : Sys) (X : Nat),
      ((L.foldl (fun s e => clear_slot s e.1 e.2) sys) X).isSome = (sys X).isSome ∧
      ∀ r', (L.foldl (fun s e => clear_slot s e.1 e.2) sys) X = some r' →
        ∃ r, sys X = some r ∧
          r'.input_signals_num = r.input_signals_num ∧
          r'.output_signals_num = r.output_signals_num ∧
          r'.outgoing_connections = r.outgoing_connections ∧
          ∀ i, r'.incoming_connections i =
            if (X, i) ∈ L then none else r.incoming_connections i := by
  induction L with
  | nil =>
    intro sys X
    exact ⟨rfl, fun r' hr' => ⟨r', hr', rfl, rfl, rfl, fun i => by simp⟩⟩
  | cons e R ih =>
    intro sys X
    rw [List.foldl_cons]
    obtain ⟨hsome1, hspec1⟩ := clear_slot_spec sys e.1 e.2 X
    obtain ⟨hsomeR, hspecR⟩ := ih (clear_slot sys e.1 e.2) X
    constructor
    · rw [hsomeR, hsome1]
    · intro r' hr'
      rcases hspecR r' hr' with ⟨r1, hr1, hn1, hm1, hout1, hinc1⟩
      rcases hspec1 r1 hr1 with ⟨r, hr, hn2, hm2, hout2, hinc2⟩
      refine ⟨r, hr, hn1.trans hn2, hm1.trans hm2, hout1.trans hout2, fun i => ?_⟩
      rw [hinc1 i]
      by_cases hmem : (X, i) ∈ R
      · rw [if_pos hmem, if_pos (List.mem_cons.mpr (Or.inr hmem))]
      · rw [if_neg hmem, hinc2 i]
        by_cases hc : X = e.1 ∧ i = e.2
        · rw [if_pos hc, if_pos (List.mem_cons.mpr (Or.inl (Prod.ext_iff.mpr ⟨hc.1, hc.2⟩)))]
        · have hnm : (X, i) ∉ e :: R := by
            intro hm
            rcases List.mem_cons.mp hm with h' | h'
            · exact hc ⟨congrArg Prod.fst h', congrArg Prod.snd h'⟩
            · exact hmem h'
          rw [if_neg hc, if_neg hnm]

theorem LinkInv_clear_out_bit (sys : Sys) (hI : LinkInv sys) (A j : Nat) :
    LinkInv (clear_out_bit sys A j) := by
  cases hA : sys A with
  | none =>
    have he : clear_out_bit sys A j = sys := by
      simp only [clear_out_bit, hA]
    rw [he]
    exact hI
  | some a =>
    obtain ⟨hsomeA, hspecA⟩ := foldClear_spec (a.outgoing_connections j) sys A
    have hsA : (((a.outgoing_connections j).foldl (fun s e => clear_slot s e.1 e.2) sys) A).isSome := by
      rw [hsomeA, hA]
      rfl
    obtain ⟨a1, ha1⟩ := Option.isSome_iff_exists.mp hsA
    have he : clear_out_bit sys A j =
        updSys ((a.outgoing_connections j).foldl (fun s e => clear_slot s e.1 e.2) sys) A
          { a1 with outgoing_connections := updFun a1.outgoing_connections j [] } := by
      simp only [clear_out_bit, hA, ha1]
    rw [he]
    rcases hspecA a1 ha1 with ⟨a', ha', hn1, hm1, hout1, hinc1⟩
    have haa : a' = a := by
      rw [ha'] at hA
      exact Option.some.inj hA
    subst haa
    have hfwd : ∀ X r',
        updSys ((a'.outgoing_connections j).foldl (fun s e => clear_slot s e.1 e.2) sys) A
          { a1 with outgoing_connections := updFun a1.outgoing_connections j [] } X = some r' →
        ∃ r, sys X = some r ∧
          r'.input_signals_num = r.input_signals_num ∧
          r'.output_signals_num = r.output_signals_num ∧
          (∀ i, r'.incoming_connections i =
            if (X, i) ∈ a'.outgoing_connections j then none else r.incoming_connections i) ∧
          (∀ jj, r'.outgoing_connections jj =
            if X = A ∧ jj = j then [] else r.outgoing_connections jj) := by
      intro X r' hr'
      rw [updSys_apply] at hr'
      by_cases hX : X = A
      · rw [if_pos hX] at hr'
        have hr'' := Option.some.inj hr'
        subst hX
        refine ⟨a', ha', ?_, ?_, ?_, ?_⟩
        · rw [← hr'']
          exact hn1
        · rw [← hr'']
          exact hm1
        · intro i
          rw [← hr'']
          exact hinc1 i
        · intro jj
          rw [← hr'']
          show updFun a1.outgoing_connections j [] jj = _
          rw [updFun_apply]
          by_cases hj : jj = j
          · rw [if_pos hj, if_pos ⟨rfl, hj⟩]
          · rw [if_neg hj, if_neg (fun hc => hj hc.2), hout1]
      · rw [if_neg hX] at hr'
        obtain ⟨_, hspecX⟩ := foldClear_spec (a'.outgoing_connections j) sys X
        rcases hspecX r' hr' with ⟨r, hr, hn, hm, hout, hinc⟩
        refine ⟨r, hr, hn, hm, hinc, fun jj => ?_⟩
        rw [if_neg (fun hc => hX hc.1), hout]
    have hpres : ∀ X r, sys X = some r →
        ∃ r', updSys ((a'.outgoing_connections j).foldl (fun s e => clear_slot s e.1 e.2) sys) A
          { a1 with outgoing_connections := updFun a1.outgoing_connections j [] } X = some r' ∧
          r'.input_signals_num = r.input_signals_num ∧
          r'.output_signals_num = r.output_signals_num := by
      intro X r hr
      by_cases hX : X = A
      · subst hX
        have hra : r = a' := by
          rw [hr] at ha'
          exact Option.some.inj ha'
        refine ⟨{ a1 with outgoing_connections := updFun a1.outgoing_connections j [] },
          by rw [updSys_apply, if_pos rfl], ?_, ?_⟩
        · rw [hra]
          exact hn1
        · rw [hra]
          exact hm1
      · obtain ⟨hsomeX, hspecX⟩ := foldClear_spec (a'.outgoing_connections j) sys X
        have : (((a'.outgoing_connections j).foldl (fun s e => clear_slot s e.1 e.2) sys) X).isSome := by
          rw [hsomeX, hr]
          rfl
        obtain ⟨r1, hr1⟩ := Option.isSome_iff_exists.mp this
        rcases hspecX r1 hr1 with ⟨r2, hr2, hn, hm, _, _⟩
        have hrr : r2 = r := by
          rw [hr2] at hr
          exact Option.some.inj hr
        refine ⟨r1, by rw [updSys_apply, if_neg hX]; exact hr1, ?_, ?_⟩
        · rw [hn, hrr]
        · rw [hm, hrr]
    constructor
    · intro X x i hX hle
      rcases hfwd X x hX with ⟨r, hr, hn, _, hinc, _⟩
      rw [hinc i]
      by_cases hmem : (X, i) ∈ a'.outgoing_connections j
      · rw [if_pos hmem]
      · rw [if_neg hmem]
        exact hI.inc_dom X r i hr (by rw [← hn]; exact hle)
    · intro X x jj hX hle
      rcases hfwd X x hX with ⟨r, hr, _, hm, _, hout⟩
      rw [hout jj]
      by_cases hc : X = A ∧ jj = j
      · rw [if_pos hc]
      · rw [if_neg hc]
        exact hI.out_dom X r jj hr (by rw [← hm]; exact hle)
    · intro X x i B jj hX hxi
      rcases hfwd X x hX with ⟨r, hr, _, _, hinc, _⟩
      rw [hinc i] at hxi
      by_cases hmem : (X, i) ∈ a'.outgoing_connections j
      · rw [if_pos hmem] at hxi
        exact absurd hxi (by simp)
      · rw [if_neg hmem] at hxi
        rcases hI.inc_tgt X r i B jj hr hxi with ⟨b, hb, hlt⟩
        rcases hpres B b hb with ⟨b', hb', _, hm'⟩
        exact ⟨b', hb', by rw [hm']; exact hlt⟩
    · intro Y y jj P i hY hmem
      rcases hfwd Y y hY with ⟨r, hr, _, _, _, hout⟩
      rw [hout jj] at hmem
      by_cases hc : Y = A ∧ jj = j
      · rw [if_pos hc] at hmem
        exact absurd hmem (List.not_mem_nil _)
      · rw [if_neg hc] at hmem
        rcases hI.out_tgt Y r jj P i hr hmem with ⟨p, hp, hlt⟩
        rcases hpres P p hp with ⟨p', hp', hn', _⟩
        exact ⟨p', hp', by rw [hn']; exact hlt⟩
    · intro X x Y y i jj hX hY
      rcases hfwd X x hX with ⟨rX, hrX, _, _, hincX, _⟩
      rcases hfwd Y y hY with ⟨rY, hrY, _, _, _, houtY⟩
      rw [hincX i, houtY jj]
      by_cases hmem : (X, i) ∈ a'.outgoing_connections j
      · rw [if_pos hmem]
        by_cases hYc : Y = A ∧ jj = j
        · rw [if_pos hYc]
          constructor
          · intro h
            exact absurd h (by simp)
          · intro h
            exact absurd h (List.not_mem_nil _)
        · rw [if_neg hYc]
          constructor
          · intro h
            exact absurd h (by simp)
          · intro h
            exfalso
            have h1 := (hI.sym X rX Y rY i jj hrX hrY).mpr h
            have h2 := (hI.sym X rX A a' i j hrX ha').mpr hmem
            rw [h2] at h1
            have h3 := Option.some.inj h1
            exact hYc ⟨(show A = Y from congrArg Prod.fst h3).symm,
              (show j = jj from congrArg Prod.snd h3).symm⟩
      · rw [if_neg hmem]
        by_cases hYc : Y = A ∧ jj = j
        · rw [if_pos hYc]
          constructor
          · intro h
            exfalso
            rw [hYc.1, hYc.2] at h
            have hrYa : rY = a' := by
              rw [hYc.1] at hrY
              rw [hrY] at ha'
              exact Option.some.inj ha'
            exact hmem ((hI.sym X rX A a' i j hrX ha').mp h)
          · intro h
            exact absurd h (List.not_mem_nil _)
        · rw [if_neg hYc]
          exact hI.sym X rX Y rY i jj hrX hrY
    · exact he ▸ UniqOut_clear_out_bit sys hI.uniq A j

theorem remove_keeps_none (sys : Sys) (A b X i : Nat)
    (h : ∀ r, sys X = some r → r.incoming_connections i = none) :
    ∀ r', remove_the_connection sys A b X = some r' → r'.incoming_connections i = none := by
  intro r' hr'
  rcases remove_the_connection_cases sys A b with hc | ⟨a, S, sb, src, hA, hb, hinc, hS⟩
  · rw [hc] at hr'
    exact h r' hr'
  · rw [remove_the_connection_char sys A b a hA hb S sb hinc src hS X] at hr'
    cases hx : sys X with
    | none =>
      rw [hx] at hr'
      exact absurd hr' (by simp)
    | some r =>
      rw [hx] at hr'
      simp only [Option.map_some'] at hr'
      rw [← Option.some.inj hr', remove_fun_incoming]
      by_cases hc2 : X = A ∧ i = b
      · rw [if_pos hc2]
      · rw [if_neg hc2]
        exact h r hx

theorem fold_remove_spec (A : Nat) :
    ∀ (N : Nat) (sys : Sys), LinkInv sys →
      LinkInv ((List.range N).foldl (fun s i => remove_the_connection s A i) sys) ∧
      ∀ a0, sys A = some a0 →
        ∃ a1, ((List.range N).foldl (fun s i => remove_the_connection s A i) sys) A = some a1 ∧
          a1.input_signals_num = a0.input_signals_num ∧
          a1.output_signals_num = a0.output_signals_num ∧
          ∀ i, i < N → i < a0.input_signals_num → a1.incoming_connections i = none := by
  intro N
  induction N with
  | zero =>
    intro sys hI
    exact ⟨hI, fun a0 h0 => ⟨a0, h0, rfl, rfl, fun i hi _ => absurd hi (by omega)⟩⟩
  | succ N ih =>
    intro sys hI
    obtain ⟨hI1, hpres1⟩ := ih sys hI
    rw [List.range_succ, List.foldl_append, List.foldl_cons, List.foldl_nil]
    refine ⟨LinkInv_remove _ hI1 A N, ?_⟩
    intro a0 h0
    rcases hpres1 a0 h0 with ⟨a1, ha1, hn1, hm1, hcl1⟩
    rcases remove_presence ((List.range N).foldl (fun s i => remove_the_connection s A i) sys)
      A N A a1 ha1 with ⟨a2, ha2, hn2, hm2⟩
    refine ⟨a2, ha2, hn2.trans hn1, hm2.trans hm1, ?_⟩
    intro i hi hin
    rcases Nat.lt_succ_iff_lt_or_eq.mp hi with hi' | hi'
    · exact remove_keeps_none _ A N A i
        (fun r hr => by
          have : r = a1 := by
            rw [hr] at ha1
            exact Option.some.inj ha1
          rw [this]
          exact hcl1 i hi' hin) a2 ha2
    · subst hi'
      rcases remove_clears_slot _ hI1 A i a1 ha1 (by rw [hn1]; exact hin) with ⟨a3, ha3, hno3, _⟩
      have : a2 = a3 := by
        rw [ha2] at ha3
        exact Option.some.inj ha3
      rw [this]
      exact hno3

theorem clear_out_bit_A_spec (sys : Sys) (A j : Nat) (a0 : Moore) (hA : sys A = some a0) :
    ∃ a1, clear_out_bit sys A j A = some a1 ∧
      a1.input_signals_num = a0.input_signals_num ∧
      a1.output_signals_num = a0.output_signals_num ∧
      (∀ i, a0.incoming_connections i = none → a1.incoming_connections i = none) ∧
      a1.outgoing_connections j = [] ∧
      ∀ jj, jj ≠ j → a1.outgoing_connections jj = a0.outgoing_connections jj := by
  obtain ⟨hsomeA, hspecA⟩ := foldClear_spec (a0.outgoing_connections j) sys A
  have hsA : (((a0.outgoing_connections j).foldl (fun s e => clear_slot s e.1 e.2) sys) A).isSome := by
    rw [hsomeA, hA]
    rfl
  obtain ⟨b1, hb1⟩ := Option.isSome_iff_exists.mp hsA
  have he : clear_out_bit sys A j =
      updSys ((a0.outgoing_connections j).foldl (fun s e => clear_slot s e.1 e.2) sys) A
        { b1 with outgoing_connections := updFun b1.outgoing_connections j [] } := by
    simp only [clear_out_bit, hA, hb1]
  rcases hspecA b1 hb1 with ⟨a', ha', hn1, hm1, hout1, hinc1⟩
  have haa : a' = a0 := by
    rw [ha'] at hA
    exact Option.some.inj hA
  subst haa
  refine ⟨{ b1 with outgoing_connections := updFun b1.outgoing_connections j [] },
    by rw [he, updSys_apply, if_pos rfl], hn1, hm1, ?_, ?_, ?_⟩
  · intro i hnone
    show b1.incoming_connections i = none
    rw [hinc1 i]
    by_cases hmem : (A, i) ∈ a'.outgoing_connections j
    · rw [if_pos hmem]
    · rw [if_neg hmem]
      exact hnone
  · show updFun b1.outgoing_connections j [] j = []
    rw [updFun_apply, if_pos rfl]
  · intro jj hjj
    show updFun b1.outgoing_connections j [] jj = _
    rw [updFun_apply, if_neg hjj, hout1]

theorem fold_clear_out_spec (A : Nat) :
    ∀ (M : Nat) (sys : Sys), LinkInv sys →
      LinkInv ((List.range M).foldl (fun s j => clear_out_bit s A j) sys) ∧
      ∀ a0, sys A = some a0 →
        ∃ a1, ((List.range M).foldl (fun s j => clear_out_bit s A j) sys) A = some a1 ∧
          a1.input_signals_num = a0.input_signals_num ∧
          a1.output_signals_num = a0.output_signals_num ∧
          (∀ i, a0.incoming_connections i = none → a1.incoming_connections i = none) ∧
          ∀ jj, jj < M → a1.outgoing_connections jj = [] := by
  intro M
  induction M with
  | zero =>
    intro sys hI
    exact ⟨hI, fun a0 h0 => ⟨a0, h0, rfl, rfl, fun _ h => h, fun jj hjj => absurd hjj (by omega)⟩⟩
  | succ M ih =>
    intro sys hI
    obtain ⟨hI1, hpres1⟩ := ih sys hI
    rw [List.range_succ, List.foldl_append, List.foldl_cons, List.foldl_nil]
    refine ⟨LinkInv_clear_out_bit _ hI1 A M, ?_⟩
    intro a0 h0
    rcases hpres1 a0 h0 with ⟨a1, ha1, hn1, hm1, hkeep1, hcl1⟩
    rcases clear_out_bit_A_spec _ A M a1 ha1 with ⟨a2, ha2, hn2, hm2, hkeep2, hclM, hother⟩
    refine ⟨a2, ha2, hn2.trans hn1, hm2.trans hm1, fun i h => hkeep2 i (hkeep1 i h), ?_⟩
    intro jj hjj
    rcases Nat.lt_succ_iff_lt_or_eq.mp hjj with hjj' | hjj'
    · rw [hother jj (by omega), hcl1 jj hjj']
    · subst hjj'
      exact hclM

theorem LinkInv_drop (sys : Sys) (hI : LinkInv sys) (A : Nat) (a : Moore)
    (hA : sys A = some a)
    (hinc : ∀ i, a.incoming_connections i = none)
    (hout : ∀ j, a.outgoing_connections j = []) :
    LinkInv (fun k => if k = A then none else sys k) := by
  have hlook : ∀ X r', (if X = A then none else sys X) = some r' → X ≠ A ∧ sys X = some r' := by
    intro X r' h
    by_cases hX : X = A
    · rw [if_pos hX] at h
      exact absurd h (by simp)
    · rw [if_neg hX] at h
      exact ⟨hX, h⟩
  constructor
  · intro X x i hX hle
    obtain ⟨_, hX'⟩ := hlook X x hX
    exact hI.inc_dom X x i hX' hle
  · intro X x j hX hle
    obtain ⟨_, hX'⟩ := hlook X x hX
    exact hI.out_dom X x j hX' hle
  · intro X x i B j hX hxi
    obtain ⟨_, hX'⟩ := hlook X x hX
    rcases hI.inc_tgt X x i B j hX' hxi with ⟨b, hb, hlt⟩
    have hBA : B ≠ A := by
      intro hBA
      subst hBA
      have hba : b = a := by
        rw [hb] at hA
        exact Option.some.inj hA
      have := (hI.sym X x B b i j hX' hb).mp hxi
      rw [hba, hout j] at this
      exact absurd this (List.not_mem_nil _)
    exact ⟨b, by rw [if_neg hBA]; exact hb, hlt⟩
  · intro Y y j P i hY hmem
    obtain ⟨_, hY'⟩ := hlook Y y hY
    rcases hI.out_tgt Y y j P i hY' hmem with ⟨p, hp, hlt⟩
    have hPA : P ≠ A := by
      intro hPA
      subst hPA
      have := (hI.sym P a Y y i j hA hY').mpr hmem
      rw [hinc i] at this
      exact absurd this (by simp)
    exact ⟨p, by rw [if_neg hPA]; exact hp, hlt⟩
  · intro X x Y y i j hX hY
    obtain ⟨_, hX'⟩ := hlook X x hX
    obtain ⟨_, hY'⟩ := hlook Y y hY
    exact hI.sym X x Y y i j hX' hY'
  · intro B b j hB
    obtain ⟨_, hB'⟩ := hlook B b hB
    exact hI.uniq B b j hB'

theorem clear_the_connections_spec (sys : Sys) (hI : LinkInv sys) (A : Nat) :
    LinkInv (clear_the_connections sys A) ∧
      ∀ a0, sys A = some a0 →
        ∃ a1, clear_the_connections sys A A = some a1 ∧
          (∀ i, a1.incoming_connections i = none) ∧
          (∀ j, a1.outgoing_connections j = []) := by
  cases hA : sys A with
  | none =>
    have he : clear_the_connections sys A = sys := by
      simp only [clear_the_connections, hA]
    rw [he]
    refine ⟨hI, fun a0 h0 => absurd h0 (by simp)⟩
  | some a =>
    have he : clear_the_connections sys A =
        (List.range a.output_signals_num).foldl (fun s j => clear_out_bit s A j)
          ((List.range a.input_signals_num).foldl (fun s i => remove_the_connection s A i) sys) := by
      simp only [clear_the_connections, hA]
    rw [he]
    obtain ⟨hI1, hpres1⟩ := fold_remove_spec A a.input_signals_num sys hI
    obtain ⟨hI2, hpres2⟩ := fold_clear_out_spec A a.output_signals_num _ hI1
    refine ⟨hI2, ?_⟩
    intro a0 h0
    have ha0 : a0 = a := Option.some.inj h0.symm
    subst ha0
    rcases hpres1 a0 hA with ⟨a1, ha1, hn1, hm1, hcl1⟩
    have hinc1 : ∀ i, a1.incoming_connections i = none := by
      intro i
      by_cases hi : i < a0.input_signals_num
      · exact hcl1 i hi hi
      · exact hI1.inc_dom A a1 i ha1 (by rw [hn1]; omega)
    rcases hpres2 a1 ha1 with ⟨a2, ha2, hn2, hm2, hkeep2, hcl2⟩
    refine ⟨a2, ha2, fun i => hkeep2 i (hinc1 i), ?_⟩
    intro j
    by_cases hj : j < a0.output_signals_num
    · exact hcl2 j hj
    · exact hI2.out_dom A a2 j ha2 (by rw [hm2, hm1]; omega)

theorem LinkInv_ma_delete (sys : Sys) (hI : LinkInv sys) (A : Nat) :
    LinkInv (ma_delete sys A) := by
  cases hA : sys A with
  | none =>
    have he : ma_delete sys A = sys := by
      simp only [ma_delete, hA]
    rw [he]
    exact hI
  | some a =>
    have he : ma_delete sys A = fun k => if k = A then none else clear_the_connections sys A k := by
      simp only [ma_delete, hA]
    rw [he]
    obtain ⟨hI', hpres⟩ := clear_the_connections_spec sys hI A
    rcases hpres a hA with ⟨a1, ha1, hinc1, hout1⟩
    exact LinkInv_drop _ hI' A a1 ha1 hinc1 hout1

/-- Connection state of the symmetry witness: two live unconnected
automata, all allocations succeeding. -/
def stW2 : CSt :=
  { sys := sysPlain2, oracle := [], errno := none }

/-- C2 counterexample: on `stFailFirst` (two fresh automata; the first
link-node allocation fails, the second succeeds), `ma_connect` leaves
automaton 0's incoming slot 0 empty while the mirrored entry `(0, 0)`
is present in automaton 1's outgoing list for bit 0 — the symmetry
invariant is broken by a partial-allocation-failure path, and both
automata are live. -/
theorem link_symmetry_violation :
    ((ma_connect stFailFirst 0 0 1 0 1).1.sys 0).isSome = true ∧
      ((ma_connect stFailFirst 0 0 1 0 1).1.sys 1).isSome = true ∧
      incomingOf (ma_connect stFailFirst 0 0 1 0 1).1.sys 0 0 = none ∧
      (0, 0) ∈ outgoingOf (ma_connect stFailFirst 0 0 1 0 1).1.sys 1 0 := by
  refine ⟨by decide, by decide, by decide, by decide⟩

/-- C2 (amended): the link-symmetry invariant — together with the
structural facts it needs (unused indices empty, endpoints live and in
range, outgoing lists duplicate-free), bundled as `LinkInv`, whose
`sym` field is exactly the claimed incoming/outgoing mirror property —
is preserved by every `ma_connect` in which every link-node allocation
succeeds (empty oracle), by every `ma_disconnect`, and by every
`ma_delete`, including their argument-rejection paths. -/
theorem link_symmetry_preserved (st : CSt) (hI : LinkInv st.sys) (ho : st.oracle = [])
    (aInId inS aOutId outS num aInId2 inS2 num2 D : Nat) :
    LinkInv (ma_connect st aInId inS aOutId outS num).1.sys ∧
      LinkInv (ma_disconnect st.sys aInId2 inS2 num2).1 ∧
      LinkInv (ma_delete st.sys D) :=
  ⟨LinkInv_ma_connect st hI ho aInId inS aOutId outS num,
    LinkInv_ma_disconnect st.sys hI aInId2 inS2 num2,
    LinkInv_ma_delete st.sys hI D⟩

/-- Witness for C2 (amended) on the concrete two-automaton state
`stW2`. -/
theorem link_symmetry_preserved_witness :
    LinkInv stW2.sys ∧ stW2.oracle = [] ∧
      (LinkInv (ma_connect stW2 0 0 1 0 1).1.sys ∧
        LinkInv (ma_disconnect stW2.sys 0 0 1).1 ∧
        LinkInv (ma_delete stW2.sys 1)) := by
  have hI : LinkInv stW2.sys := by
    have hlook : ∀ X r, stW2.sys X = some r → r = plainAut := by
      intro X r h
      by_cases h0 : X = 0
      · rw [show stW2.sys X = some plainAut from by simp [stW2, sysPlain2, h0]] at h
        exact (Option.some.inj h).symm
      · by_cases h1 : X = 1
        · rw [show stW2.sys X = some plainAut from by simp [stW2, sysPlain2, h0, h1]] at h
          exact (Option.some.inj h).symm
        · rw [show stW2.sys X = none from by simp [stW2, sysPlain2, h0, h1]] at h
          exact absurd h (by simp)
    constructor
    · intro A a i hA _
      rw [hlook A a hA]
      rfl
    · intro A a j hA _
      rw [hlook A a hA]
      rfl
    · intro A a i B j hA hinc
      rw [hlook A a hA] at hinc
      exact absurd hinc (by simp [plainAut])
    · intro B b j A i hB hmem
      rw [hlook B b hB] at hmem
      exact absurd hmem (by simp [plainAut])
    · intro A a B b i j hA hB
      rw [hlook A a hA, hlook B b hB]
      simp [plainAut]
    · intro B b j hB
      rw [hlook B b hB]
      exact List.nodup_nil
  exact ⟨hI, rfl, link_symmetry_preserved stW2 hI rfl 0 0 1 0 1 0 0 1 1⟩
